import Mathlib

/-!
Verification of the PropertyFilter parsing / validation / conversion engine.

Shallow embedding of the repository's core functions (the primitive
matchers, the incremental classifier `parseText`, the IP / port validators,
the query format converters and the suggestion builder).  JavaScript
strings are modelled as `List Char`; JavaScript `undefined` / `null` are
modelled as `Option`; the regular expressions of the validators are
modelled as explicit maximal-munch parsers (which agree with the anchored
regexes used by the source, since every quantified class in those regexes
is a digit run delimited by non-digit literals).
-/

/-- JavaScript strings, modelled as lists of characters. -/
abbrev Str := List Char

/-- Embed a Lean string literal. -/
def strOf (s : String) : Str := s.data

/-- JS `String.prototype.trim` (both ends, whitespace). -/
def jsTrim (s : Str) : Str :=
  ((s.dropWhile Char.isWhitespace).reverse.dropWhile Char.isWhitespace).reverse

/-- JS `String.prototype.toLowerCase`, character-wise (ASCII letters). -/
def toLowerStr (s : Str) : Str := s.map Char.toLower

/-- `utils.js trimStart`: drop the longest run of leading `' '` characters
(the source counts the spaces and slices them off, which is the same
function). -/
def trimStart (source : Str) : Str := source.dropWhile (fun c => c == ' ')

/-- JS `source.indexOf(target)` starting the search at index `i`:
the first `j ≥ i` at which `target` occurs in the suffix of `source`,
`none` when there is no occurrence (`-1` in JS). -/
def jsIndexOfFrom (source target : Str) (i : Nat) : Option Nat :=
  if target.isPrefixOf source then some i
  else
    match source with
    | [] => none
    | _ :: rest => jsIndexOfFrom rest target (i + 1)

/-- `utils.js startsWith`: `source.indexOf(target) === 0`, which holds
exactly when `target` is a prefix of `source` (`jsIndexOf_zero_iff`
below). -/
def startsWith (source target : Str) : Bool := target.isPrefixOf source

/-- JS `s.slice(start)` for a possibly negative `start`
(a negative start counts from the end, clamped at 0). -/
def jsSliceFrom (s : Str) (start : Int) : Str :=
  let b : Nat := if start < 0 then ((s.length : Int) + start).toNat else start.toNat
  s.drop b

/-- `utils.js removeOperator`: slice off everything up to and including the
first occurrence of `operator`, then strip at most one following space. -/
def removeOperator (source operator : Str) : Str :=
  let idx : Int := match jsIndexOfFrom source operator 0 with
    | some n => (n : Int)
    | none => -1
  let operatorLastIndex : Int := idx + operator.length
  let textWithoutOperator := jsSliceFrom source operatorLastIndex
  match textWithoutOperator with
  | ' ' :: rest => rest
  | s => s

/-- JS `'x,y'.split(sep)` for a one-character separator. -/
def jsSplit (sep : Char) : Str → List Str
  | [] => [[]]
  | c :: rest =>
    if c = sep then [] :: jsSplit sep rest
    else
      match jsSplit sep rest with
      | h :: t => (c :: h) :: t
      | [] => [[c]]

/-- Numeric value of a run of decimal digits (`parseInt` on a pure digit
string). -/
def parseNatDigits (s : Str) : Nat := s.foldl (fun n c => n * 10 + (c.toNat - 48)) 0

/-- Hexadecimal digit predicate, for `parseInt`'s `0x` form. -/
def isHexDigit (c : Char) : Bool :=
  c.isDigit || ('a' ≤ c && c ≤ 'f') || ('A' ≤ c && c ≤ 'F')

/-- Numeric value of a run of hexadecimal digits. -/
def parseNatHex (s : Str) : Nat :=
  s.foldl (fun n c =>
    n * 16 + (if c.isDigit then c.toNat - 48
              else if 'a' ≤ c then c.toNat - 87 else c.toNat - 55)) 0

/-- JS `parseInt(s)` (no radix argument): trim, optional sign, then a
maximal run of decimal digits — or of hex digits after `0x` / `0X` —
with any trailing characters ignored; `none` models `NaN`. -/
def jsParseInt (s : Str) : Option Int :=
  let t := jsTrim s
  let sgn : Int := match t with
    | '-' :: _ => -1
    | _ => 1
  let t1 : Str := match t with
    | '-' :: r => r
    | '+' :: r => r
    | r => r
  match t1 with
  | '0' :: 'x' :: r =>
    let run := r.takeWhile isHexDigit
    if run = [] then none else some (sgn * (parseNatHex run : Int))
  | '0' :: 'X' :: r =>
    let run := r.takeWhile isHexDigit
    if run = [] then none else some (sgn * (parseNatHex run : Int))
  | _ =>
    let run := t1.takeWhile Char.isDigit
    if run = [] then none else some (sgn * (parseNatDigits run : Int))

/-- A property definition (`filteringProperties` entries).  The fields are
the ones the core reads; `hidden` marks properties excluded from property
suggestions. -/
structure Property where
  key : Str
  propertyLabel : Str
  groupValuesLabel : Option Str := none
  operators : List Str := []
  defaultOperator : Str := strOf "="
  hidden : Bool := false
deriving DecidableEq, Repr

/-- The free-text filtering configuration passed to `parseText`. -/
structure FreeTextFiltering where
  disabled : Bool
  operators : List Str
  defaultOperator : Str
deriving DecidableEq, Repr

/-- Result of `parseText`: the three classifier steps. -/
inductive ParsedText where
  /-- `step: 'property'` — matched property, operator and value text. -/
  | property (property : Property) (operator : Str) (value : Str)
  /-- `step: 'operator'` — matched property and partial operator text. -/
  | operatorStep (property : Property) (opText : Str)
  /-- `step: 'free-text'` — optional free-text operator and the value. -/
  | freeText (operator : Option Str) (value : Str)
deriving DecidableEq, Repr

/-- The acceptance condition of the `matchFilteringProperty` loop: a
case-sensitive prefix at least as long as the running maximum, or a
case-insensitive prefix strictly longer than it. -/
def mfpCond (text : Str) (maxLength : Nat) (p : Property) : Prop :=
  (maxLength ≤ p.propertyLabel.length ∧ startsWith text p.propertyLabel = true) ∨
  (maxLength < p.propertyLabel.length ∧
    startsWith (toLowerStr text) (toLowerStr p.propertyLabel) = true)

instance (text : Str) (maxLength : Nat) (p : Property) :
    Decidable (mfpCond text maxLength p) := by
  unfold mfpCond
  infer_instance

/-- Loop body of `matchFilteringProperty`: the pair carries the running
`maxLength` and `matchedProperty` of the source's loop. -/
def mfpAux (text : Str) : List Property → Nat → Option Property → Nat × Option Property
  | [], maxLength, matched => (maxLength, matched)
  | p :: rest, maxLength, matched =>
    if mfpCond text maxLength p then
      mfpAux text rest p.propertyLabel.length (some p)
    else
      mfpAux text rest maxLength matched

/-- `utils.js matchFilteringProperty`: longest property label that prefixes
the text, case-sensitively, or case-insensitively when strictly longer. -/
def matchFilteringProperty (filteringProperties : List Property) (filteringText : Str) :
    Option Property :=
  (mfpAux filteringText filteringProperties 0 none).2

/-- Loop body of `matchOperator` (`text` is already lower-cased, as in the
source, which lower-cases the filtering text once before the loop). -/
def moAux (text : Str) : List Str → Nat → Option Str → Option Str
  | [], _, matched => matched
  | op :: rest, maxLength, matched =>
    if maxLength < op.length ∧ startsWith text (toLowerStr op) then
      moAux text rest op.length (some op)
    else
      moAux text rest maxLength matched

/-- `utils.js matchOperator`: longest operator that case-insensitively
prefixes the text. -/
def matchOperator (allowedOperators : List Str) (filteringText : Str) : Option Str :=
  moAux (toLowerStr filteringText) allowedOperators 0 none

/-- Loop body of `matchOperatorPrefix`: return the text on the first
operator that the (lower-cased) text prefixes. -/
def mopAux (filteringText : Str) : List Str → Option Str
  | [] => none
  | op :: rest =>
    if startsWith (toLowerStr op) (toLowerStr filteringText) then some filteringText
    else mopAux filteringText rest

/-- `utils.js matchOperatorPrefix`: empty string for all-whitespace text,
the text itself when it could be the start of some operator, else none.
Note the loop tests the raw `filteringText`, not its trimmed form. -/
def matchOperatorPrefix (allowedOperators : List Str) (filteringText : Str) : Option Str :=
  if (jsTrim filteringText).length = 0 then some []
  else mopAux filteringText allowedOperators

/-- The canonical operator display order of `getAllowedOperators`. -/
def operatorOrder : List Str :=
  [strOf "=", strOf "!=", strOf ":", strOf "!:", strOf "^", strOf "!^",
   strOf ">=", strOf "<=", strOf "<", strOf ">"]

/-- `utils.js getAllowedOperators`: the property's operators plus its
default operator, deduplicated (a JS `Set` is queried only for
membership), in canonical order. -/
def getAllowedOperators (property : Property) : List Str :=
  let operatorSet := property.defaultOperator :: property.operators
  operatorOrder.filter (fun op => operatorSet.contains op)

/-- `controller.js parseText`: classify the filtering text into one of the
three steps. -/
def parseText (filteringText : Str) (filteringProperties : List Property)
    (freeTextFiltering : FreeTextFiltering) : ParsedText :=
  match matchFilteringProperty filteringProperties filteringText with
  | none =>
    if !freeTextFiltering.disabled then
      let freeTextOperators :=
        if freeTextFiltering.operators.contains (strOf "!:") then
          strOf "!" :: freeTextFiltering.operators
        else freeTextFiltering.operators
      match matchOperator freeTextOperators filteringText with
      | some operator =>
        ParsedText.freeText
          (some (if operator = strOf "!" then strOf "!:" else operator))
          (removeOperator filteringText operator)
      | none => ParsedText.freeText none filteringText
    else ParsedText.freeText none filteringText
  | some property =>
    let allowedOps := getAllowedOperators property
    let textWithoutProperty := filteringText.drop property.propertyLabel.length
    match matchOperator allowedOps (trimStart textWithoutProperty) with
    | some operator =>
      ParsedText.property property operator (removeOperator textWithoutProperty operator)
    | none =>
      match matchOperatorPrefix allowedOps (trimStart textWithoutProperty) with
      | some opText => ParsedText.operatorStep property opText
      | none => ParsedText.freeText none filteringText

/-- The boolean operation joining a query's tokens. -/
inductive Operation where
  | and
  | or
deriving DecidableEq, Repr

/-- An internal query token: optional property key (absent for free-text
tokens; JS `undefined` / `null` are both `none`), operator symbol, value. -/
structure Token where
  propertyKey : Option Str
  operator : Str
  value : Str
deriving DecidableEq, Repr

/-- The internal query format: tokens plus one global operation. -/
structure Query where
  tokens : List Token
  operation : Operation
deriving DecidableEq, Repr

/-- One entry of an API filter array: `{field, op, value}`. -/
structure FilterItem where
  field : Option Str
  op : Str
  value : Str
deriving DecidableEq, Repr

/-- The API filter object: its two arrays, each possibly absent
(`undefined`) in a structurally incomplete input. -/
structure ApiFilter where
  andArr : Option (List FilterItem)
  orArr : Option (List FilterItem)
deriving DecidableEq, Repr

/-- The API query shape `{filter: {and: [...], or: [...]}}`, with a
possibly absent `filter` key. -/
structure ApiQuery where
  filter : Option ApiFilter
deriving DecidableEq, Repr

/-- The `operatorToApiMap` table of `utils.js`. -/
def operatorToApiMap : List (Str × Str) :=
  [(strOf "=", strOf "equals"),
   (strOf "!=", strOf "does-not-equal"),
   (strOf ":", strOf "contains"),
   (strOf "!:", strOf "does-not-contain"),
   (strOf "^", strOf "starts-with"),
   (strOf "!^", strOf "does-not-start-with"),
   (strOf ">", strOf "greater-than"),
   (strOf "<", strOf "less-than"),
   (strOf ">=", strOf "greater-than-or-equal"),
   (strOf "<=", strOf "less-than-or-equal")]

/-- The `apiToOperatorMap` table of `utils.js`. -/
def apiToOperatorMap : List (Str × Str) :=
  operatorToApiMap.map (fun e => (e.2, e.1))

/-- JS object lookup `tbl[k]`, `none` for a missing key. -/
def lookupTable (tbl : List (Str × Str)) (k : Str) : Option Str :=
  (tbl.find? (fun e => e.1 == k)).map (fun e => e.2)

/-- `utils.js operatorToApi`: table lookup with unknown-input passthrough
(`operatorToApiMap[operator] || operator`). -/
def operatorToApi (operator : Str) : Str :=
  (lookupTable operatorToApiMap operator).getD operator

/-- `utils.js apiToOperator`: reverse table lookup with unknown-input
passthrough. -/
def apiToOperator (apiOp : Str) : Str :=
  (lookupTable apiToOperatorMap apiOp).getD apiOp

/-- Token → API filter item, as mapped inside `queryToApiFormat`
(`field: token.propertyKey || null` — an absent *or empty* key becomes
`null`, because the empty string is falsy in JS). -/
def tokenToFilterItem (token : Token) : FilterItem :=
  { field := match token.propertyKey with
      | some k => if k = [] then none else some k
      | none => none
    op := operatorToApi token.operator
    value := token.value }

/-- `utils.js queryToApiFormat`: place the mapped tokens in the array
matching the operation, leaving the other array empty. -/
def queryToApiFormat (query : Query) : ApiQuery :=
  let filterItems := query.tokens.map tokenToFilterItem
  { filter := some
      { andArr := some (match query.operation with | Operation.and => filterItems | Operation.or => [])
        orArr := some (match query.operation with | Operation.or => filterItems | Operation.and => []) } }

/-- API filter item → token, as mapped inside `apiToQueryFormat`. -/
def filterItemToToken (item : FilterItem) : Token :=
  { propertyKey := item.field
    operator := apiToOperator item.op
    value := item.value }

/-- The `and` array an `apiToQueryFormat` call reads: `[]` when the
`filter` key or the array is missing. -/
def andEntries (apiQuery : ApiQuery) : List FilterItem :=
  match apiQuery.filter with
  | none => []
  | some f => f.andArr.getD []

/-- The `or` array an `apiToQueryFormat` call reads: `[]` when the
`filter` key or the array is missing. -/
def orEntries (apiQuery : ApiQuery) : List FilterItem :=
  match apiQuery.filter with
  | none => []
  | some f => f.orArr.getD []

/-- `utils.js apiToQueryFormat`: operation is `or` exactly when the `or`
array is non-empty; the matching array's entries become the tokens. -/
def apiToQueryFormat (apiQuery : ApiQuery) : Query :=
  let andItems := andEntries apiQuery
  let orItems := orEntries apiQuery
  let operation := if 0 < orItems.length then Operation.or else Operation.and
  let filterItems := if 0 < orItems.length then orItems else andItems
  { tokens := filterItems.map filterItemToToken
    operation := operation }

/-- Result of a value validator: `{valid, error?, normalizedValue?}`. -/
structure ValidationResult where
  valid : Bool
  error : Option Str := none
  normalizedValue : Option Str := none
deriving DecidableEq, Repr

/-- One 1–3 digit capture group: the maximal leading digit run, failing
when it is empty or longer than three digits (exactly the behaviour of the
anchored `(\d{1,3})` group followed by a non-digit literal, since
backtracking into the run can never make the following literal match a
digit). -/
def takeOctet (s : Str) : Option (Str × Str) :=
  if s.takeWhile Char.isDigit = [] ∨ 3 < (s.takeWhile Char.isDigit).length then none
  else some (s.takeWhile Char.isDigit, s.dropWhile Char.isDigit)

/-- The anchored regex `^(\d{1,3})\.(\d{1,3})\.(\d{1,3})\.(\d{1,3})\/(\d{1,2})$`
of `validateIPAddress`, as a parser returning the five capture groups. -/
def cidrMatch (s : Str) : Option (Str × Str × Str × Str × Str) :=
  match takeOctet s with
  | some (o1, '.' :: r1) =>
    match takeOctet r1 with
    | some (o2, '.' :: r2) =>
      match takeOctet r2 with
      | some (o3, '.' :: r3) =>
        match takeOctet r3 with
        | some (o4, '/' :: r4) =>
          if r4.takeWhile Char.isDigit = [] ∨ 2 < (r4.takeWhile Char.isDigit).length ∨
             r4.dropWhile Char.isDigit ≠ [] then none
          else some (o1, o2, o3, o4, r4.takeWhile Char.isDigit)
        | _ => none
      | _ => none
    | _ => none
  | _ => none

/-- The anchored regex `^(\d{1,3})\.(\d{1,3})\.(\d{1,3})\.(\d{1,3})$`
of `validateIPAddress`, as a parser returning the four capture groups. -/
def ipMatch (s : Str) : Option (Str × Str × Str × Str) :=
  match takeOctet s with
  | some (o1, '.' :: r1) =>
    match takeOctet r1 with
    | some (o2, '.' :: r2) =>
      match takeOctet r2 with
      | some (o3, '.' :: r3) =>
        match takeOctet r3 with
        | some (o4, []) => some (o1, o2, o3, o4)
        | _ => none
      | _ => none
    | _ => none
  | _ => none

/-- `utils.js validateIPAddress` (the test-app copy, which also returns the
normalized value; JS `null` / `undefined` / `''` all fail the leading
falsiness check, modelled here by the empty string).  Octets below 0 are
impossible for `Nat`, so only the `> 255` half of the source's octet check
remains. -/
def validateIPAddress (value : Str) : ValidationResult :=
  if value = [] then
    { valid := false, error := some (strOf "IP address is required") }
  else
    let trimmed := jsTrim value
    match cidrMatch trimmed with
    | some (o1, o2, o3, o4, cidr) =>
      let octets := [parseNatDigits o1, parseNatDigits o2, parseNatDigits o3, parseNatDigits o4]
      if octets.any (fun o => 255 < o) then
        { valid := false, error := some (strOf "Each octet must be between 0 and 255") }
      else if parseNatDigits cidr < 22 ∨ 32 < parseNatDigits cidr then
        { valid := false, error := some (strOf "CIDR must be between 22 and 32") }
      else
        { valid := true, normalizedValue := some trimmed }
    | none =>
      match ipMatch trimmed with
      | some (o1, o2, o3, o4) =>
        let octets := [parseNatDigits o1, parseNatDigits o2, parseNatDigits o3, parseNatDigits o4]
        if octets.any (fun o => 255 < o) then
          { valid := false, error := some (strOf "Each octet must be between 0 and 255") }
        else
          { valid := true, normalizedValue := some (trimmed ++ strOf "/32") }
      | none =>
        { valid := false,
          error := some (strOf "Invalid IP address format. Use x.x.x.x or x.x.x.x/22-32") }

/-- The anchored regex `^(\d+)-(\d+)$` of `validatePortNumber`, as a
parser returning the two capture groups. -/
def rangeMatch (s : Str) : Option (Str × Str) :=
  match s.takeWhile Char.isDigit, s.dropWhile Char.isDigit with
  | [], _ => none
  | a, '-' :: r =>
    if r.takeWhile Char.isDigit = [] ∨ r.dropWhile Char.isDigit ≠ [] then none
    else some (a, r.takeWhile Char.isDigit)
  | _, _ => none

/-- The error message for a bad entry of a port list. -/
def portListErr (portStr : Str) : Str :=
  strOf "Invalid port \"" ++ portStr ++ strOf "\". Ports must be between 1 and 65535"

/-- The loop over a comma-separated port list in `validatePortNumber`:
the first entry whose `parseInt` value is `NaN` or out of `[1, 65535]`
fails the whole list and is named in the error. -/
def checkPorts : List Str → ValidationResult
  | [] => { valid := true }
  | p :: rest =>
    match jsParseInt p with
    | none => { valid := false, error := some (portListErr p) }
    | some n =>
      if n < 1 ∨ 65535 < n then { valid := false, error := some (portListErr p) }
      else checkPorts rest

/-- `utils.js validatePortNumber`: a single port, a `start-end` range, or
a comma-separated list, in that order. -/
def validatePortNumber (value : Str) : ValidationResult :=
  if value = [] then
    { valid := false, error := some (strOf "Port number is required") }
  else
    let trimmed := jsTrim value
    if trimmed ≠ [] ∧ trimmed.all Char.isDigit then
      -- the anchored regex ^(\d+)$
      let port := parseNatDigits trimmed
      if port < 1 ∨ 65535 < port then
        { valid := false, error := some (strOf "Port must be between 1 and 65535") }
      else { valid := true }
    else
      match rangeMatch trimmed with
      | some (a, b) =>
        let start := parseNatDigits a
        let «end» := parseNatDigits b
        if start < 1 ∨ 65535 < start ∨ «end» < 1 ∨ 65535 < «end» then
          { valid := false, error := some (strOf "Ports must be between 1 and 65535") }
        else if «end» ≤ start then
          { valid := false,
            error := some (strOf "Range start must be less than end (e.g., 445-500, not 500-445)") }
        else { valid := true }
      | none =>
        if trimmed.contains ',' then
          checkPorts ((jsSplit ',' trimmed).map jsTrim)
        else
          { valid := false,
            error := some (strOf "Invalid port format. Use: 80, 445-500, or 21, 22, 80, 443") }

/-- One entry of a nested-choice configuration on a filter option. -/
structure NestedOption where
  value : Str
  label : Str
deriving DecidableEq, Repr

/-- A filter option's nested-choice configuration (`nestedOptions`). -/
structure NestedCfg where
  groupLabel : Str
  additionalTokenField : Str
  options : List NestedOption
deriving DecidableEq, Repr

/-- A filter option (`filteringOptions` entries): owning property (by
reference), raw value, optional display label, optional nested choices. -/
structure FilterOption where
  property : Option Property
  value : Str
  label : Option Str := none
  nestedOptions : Option NestedCfg := none
deriving DecidableEq, Repr

/-- One suggestion in a dropdown group. -/
structure SugOption where
  value : Str
  label : Str
  labelPre : Option Str := none  -- `labelPrefix` in the source
  description : Option Str := none
  keepOpenOnSelect : Bool := false
  nestedOptions : Option NestedCfg := none
  originalOption : Option FilterOption := none
deriving DecidableEq, Repr

/-- A labelled group of suggestions. -/
structure SugGroup where
  label : Str
  options : List SugOption
deriving DecidableEq, Repr

/-- The output of `getAutosuggestOptions`. -/
structure AutosuggestOptions where
  filterText : Str
  options : List SugGroup
deriving DecidableEq, Repr

/-- The i18n strings `getAutosuggestOptions` destructures, each with its
default when absent. -/
structure I18nStrings where
  groupPropertiesText : Option Str := none
  groupValuesText : Option Str := none
  operatorsText : Option Str := none
deriving DecidableEq, Repr

/-- The `operatorDescriptions` table of `controller.js`. -/
def operatorDescriptions : List (Str × Str) :=
  [(strOf "=", strOf "Equals"),
   (strOf "!=", strOf "Does not equal"),
   (strOf ":", strOf "Contains"),
   (strOf "!:", strOf "Does not contain"),
   (strOf "^", strOf "Starts with"),
   (strOf "!^", strOf "Does not start with"),
   (strOf ">=", strOf "Greater than or equal"),
   (strOf "<=", strOf "Less than or equal"),
   (strOf ">", strOf "Greater than"),
   (strOf "<", strOf "Less than")]

/-- JS `opt.label || opt.value`: the label unless it is absent or empty
(falsy), else the value. -/
def labelOrValue (label : Option Str) (value : Str) : Str :=
  match label with
  | some l => if l = [] then value else l
  | none => value

/-- `controller.js getPropertySuggestions` (test-app copy): the visible
(non-hidden) properties as one group, empty list when there are none. -/
def getPropertySuggestions (filteringProperties : List Property) (groupLabel : Str) :
    List SugGroup :=
  let visibleProperties := filteringProperties.filter (fun p => !p.hidden)
  let options := visibleProperties.map (fun property =>
    { value := property.propertyLabel
      label := property.propertyLabel
      keepOpenOnSelect := true : SugOption })
  if 0 < options.length then [{ label := groupLabel, options := options }] else []

/-- `controller.js getAllValueSuggestions` (test-app copy): one group of
value suggestions across all properties; an option is included when its
property supports the requested operator or `=`, using the requested
operator when supported and `=` otherwise.  The `operator` argument is
optional with JS default `'='`. -/
def getAllValueSuggestions (filteringOptions : List FilterOption)
    (operator : Option Str) (groupLabel : Str) : List SugGroup :=
  let op0 := operator.getD (strOf "=")
  let options := filteringOptions.filterMap (fun filteringOption =>
    match filteringOption.property with
    | none => none
    | some property =>
      let allowedOps := getAllowedOperators property
      if ¬ allowedOps.contains op0 ∧ ¬ allowedOps.contains (strOf "=") then none
      else
        let op := if allowedOps.contains op0 then op0 else strOf "="
        some
          { value := property.propertyLabel ++ (strOf " " ++ (op ++ (strOf " " ++ filteringOption.value)))
            label := labelOrValue filteringOption.label filteringOption.value
            labelPre := some (property.propertyLabel ++ (strOf " " ++ op)) : SugOption })
  if 0 < options.length then [{ label := groupLabel, options := options }] else []

/-- `controller.js getAutosuggestOptions` (test-app copy): grouped
suggestions for the current parse step. -/
def getAutosuggestOptions (parsedText : ParsedText)
    (filteringProperties : List Property) (filteringOptions : List FilterOption)
    (i18nStrings : I18nStrings) : AutosuggestOptions :=
  let groupPropertiesText := i18nStrings.groupPropertiesText.getD (strOf "Properties")
  let groupValuesText := i18nStrings.groupValuesText.getD (strOf "Values")
  let operatorsText := i18nStrings.operatorsText.getD (strOf "Operators")
  match parsedText with
  | ParsedText.property property operator value =>
    let options := filteringOptions.filter (fun o => o.property == some property)
    { filterText := value
      options :=
        [{ label := labelOrValue property.groupValuesLabel groupValuesText
           options := options.map (fun opt =>
             { value := property.propertyLabel ++ (strOf " " ++ (operator ++ (strOf " " ++ opt.value)))
               label := labelOrValue opt.label opt.value
               labelPre := some (property.propertyLabel ++ (strOf " " ++ operator))
               nestedOptions := opt.nestedOptions
               originalOption := match opt.nestedOptions with
                 | some _ => some opt
                 | none => none
               keepOpenOnSelect := opt.nestedOptions.isSome : SugOption }) }] }
  | ParsedText.operatorStep property opText =>
    let propertyOptions := getPropertySuggestions filteringProperties groupPropertiesText
    let operatorOptions := (getAllowedOperators property).map (fun op =>
      { value := property.propertyLabel ++ (strOf " " ++ (op ++ strOf " "))
        label := property.propertyLabel ++ (strOf " " ++ op)
        description := some ((lookupTable operatorDescriptions op).getD op)
        keepOpenOnSelect := true : SugOption })
    { filterText := property.propertyLabel ++ (strOf " " ++ opText)
      options := propertyOptions ++ [{ label := operatorsText, options := operatorOptions }] }
  | ParsedText.freeText operator value =>
    let needsValueSuggestions := value ≠ []
    let needsPropertySuggestions := ¬ (operator = some (strOf "!:"))
    let options :=
      (if needsPropertySuggestions then
        getPropertySuggestions filteringProperties groupPropertiesText
      else []) ++
      (if needsValueSuggestions then
        getAllValueSuggestions filteringOptions operator groupValuesText
      else [])
    { filterText := value, options := options }

/-! ## Format-converter properties -/

/-- Round-tripping one token through the two converters is the identity
when its operator survives the two operator tables and its property key is
not the (falsy) empty string. -/
theorem filterItemToToken_tokenToFilterItem (t : Token)
    (hop : apiToOperator (operatorToApi t.operator) = t.operator)
    (hkey : t.propertyKey ≠ some []) :
    filterItemToToken (tokenToFilterItem t) = t := by
  obtain ⟨pk, op, v⟩ := t
  unfold filterItemToToken tokenToFilterItem
  cases pk with
  | none => simpa using hop
  | some k =>
    have hkne : k ≠ [] := fun h => hkey (by simp [h])
    simpa [hkne] using hop

/-- C8. `apiToQueryFormat` yields operation `or` exactly when the `or`
array it reads is non-empty and `and` otherwise; an input with both
arrays empty, a missing `filter` key, or missing `and` / `or` arrays all
yield `{tokens: [], operation: 'and'}` without raising. -/
theorem apiToQueryFormat_operation_and_defaults :
    (∀ apiQuery : ApiQuery,
      ((apiToQueryFormat apiQuery).operation = Operation.or ↔ orEntries apiQuery ≠ []) ∧
      (orEntries apiQuery = [] → (apiToQueryFormat apiQuery).operation = Operation.and)) ∧
    apiToQueryFormat { filter := some { andArr := some [], orArr := some [] } } =
      { tokens := [], operation := Operation.and } ∧
    apiToQueryFormat { filter := none } = { tokens := [], operation := Operation.and } ∧
    apiToQueryFormat { filter := some { andArr := none, orArr := none } } =
      { tokens := [], operation := Operation.and } := by
  refine ⟨fun apiQuery => ?_, by decide, by decide, by decide⟩
  unfold apiToQueryFormat
  by_cases h : 0 < (orEntries apiQuery).length
  · have hne : orEntries apiQuery ≠ [] := List.ne_nil_of_length_pos h
    simp [h, hne]
  · have he : orEntries apiQuery = [] := by
      cases he : orEntries apiQuery with
      | nil => rfl
      | cons a l => exact absurd (by simp [he]) h
    simp [h, he]

/-- C10. When both arrays are non-empty, `apiToQueryFormat` returns
operation `or` with exactly the `or` array's entries as tokens, and the
result does not depend on the `and` array at all (its entries are
silently discarded). -/
theorem apiToQueryFormat_or_discards_and (andA andB orA : List FilterItem)
    (h : orA ≠ []) :
    apiToQueryFormat { filter := some { andArr := some andA, orArr := some orA } } =
      { tokens := orA.map filterItemToToken, operation := Operation.or } ∧
    apiToQueryFormat { filter := some { andArr := some andA, orArr := some orA } } =
      apiToQueryFormat { filter := some { andArr := some andB, orArr := some orA } } := by
  have hpos : 0 < orA.length := List.length_pos.mpr h
  constructor
  · unfold apiToQueryFormat
    simp [andEntries, orEntries, hpos]
  · unfold apiToQueryFormat
    simp [andEntries, orEntries, hpos]

/-- Witness for C10 at a concrete input: a populated `and` array is
dropped in favour of the `or` array. -/
theorem apiToQueryFormat_or_discards_and_witness :
    apiToQueryFormat
        ⟨some ⟨some [⟨some (strOf "name"), strOf "equals", strOf "a"⟩],
               some [⟨some (strOf "status"), strOf "contains", strOf "b"⟩]⟩⟩ =
      ⟨[⟨some (strOf "status"), strOf ":", strOf "b"⟩], Operation.or⟩ := by
  have h := apiToQueryFormat_or_discards_and
    [⟨some (strOf "name"), strOf "equals", strOf "a"⟩]
    []
    [⟨some (strOf "status"), strOf "contains", strOf "b"⟩]
    (by decide)
  exact h.1.trans (by decide)

/-- C3 counterexample. Round-tripping is *not* the identity for every
non-empty internal query: a token whose operator is the API name
`equals` comes back as `=` (the reverse table rewrites it although the
forward table passed it through), and a token whose property key is the
empty string comes back with no key (the empty string is falsy in
`token.propertyKey || null`). -/
theorem queryRoundtrip_cex :
    apiToQueryFormat (queryToApiFormat
        ⟨[⟨none, strOf "equals", strOf "x"⟩], Operation.and⟩) ≠
      ⟨[⟨none, strOf "equals", strOf "x"⟩], Operation.and⟩ ∧
    apiToQueryFormat (queryToApiFormat
        ⟨[⟨some [], strOf "=", strOf "x"⟩], Operation.and⟩) ≠
      ⟨[⟨some [], strOf "=", strOf "x"⟩], Operation.and⟩ := by
  constructor
  · decide
  · decide

/-- C3 (amended). For every internal query with a non-empty token list
whose tokens' operators survive the two operator tables (as every symbol
of the operator table does) and whose property keys are absent or
non-empty, `apiToQueryFormat (queryToApiFormat q)` reproduces `q`:
the same operation and the same token list in order. -/
theorem queryRoundtrip (q : Query) (hne : q.tokens ≠ [])
    (hop : ∀ t ∈ q.tokens, apiToOperator (operatorToApi t.operator) = t.operator)
    (hkey : ∀ t ∈ q.tokens, t.propertyKey ≠ some []) :
    apiToQueryFormat (queryToApiFormat q) = q := by
  obtain ⟨tokens, operation⟩ := q
  have hmap : (tokens.map tokenToFilterItem).map filterItemToToken = tokens := by
    rw [List.map_map]
    have : ∀ t ∈ tokens, (filterItemToToken ∘ tokenToFilterItem) t = id t := by
      intro t ht
      exact filterItemToToken_tokenToFilterItem t (hop t ht) (hkey t ht)
    rw [List.map_congr_left this, List.map_id]
  cases operation with
  | and =>
    unfold queryToApiFormat apiToQueryFormat
    simp [andEntries, orEntries, hmap]
  | or =>
    have hne' : tokens ≠ [] := by simpa using hne
    have hpos : 0 < tokens.length := List.length_pos.mpr hne'
    unfold queryToApiFormat apiToQueryFormat
    simp [andEntries, orEntries, hpos, hmap, hne']

/-- Witness for C3 at a concrete input: the round trip reproduces a
one-token `or` query. -/
theorem queryRoundtrip_witness :
    apiToQueryFormat (queryToApiFormat
        ⟨[⟨some (strOf "status"), strOf ":", strOf "active"⟩], Operation.or⟩) =
      ⟨[⟨some (strOf "status"), strOf ":", strOf "active"⟩], Operation.or⟩ :=
  queryRoundtrip ⟨[⟨some (strOf "status"), strOf ":", strOf "active"⟩], Operation.or⟩
    (by decide) (by decide) (by decide)

/-! ## Basic string lemmas -/

/-- `dropWhile` is the identity when no element satisfies the predicate. -/
theorem dropWhile_eq_self_of (p : Char → Bool) (s : Str)
    (h : ∀ c ∈ s, p c = false) : s.dropWhile p = s := by
  cases s with
  | nil => rfl
  | cons a r => simp [List.dropWhile, h a (by simp)]

/-- `takeWhile` keeps everything when every element satisfies the
predicate. -/
theorem takeWhile_all (p : Char → Bool) (s : Str)
    (h : ∀ c ∈ s, p c = true) : s.takeWhile p = s := by
  induction s with
  | nil => rfl
  | cons a r ih =>
    rw [List.takeWhile_cons_of_pos (h a (by simp)),
        ih (fun c hc => h c (by simp [hc]))]

/-- `dropWhile` drops everything when every element satisfies the
predicate. -/
theorem dropWhile_all (p : Char → Bool) (s : Str)
    (h : ∀ c ∈ s, p c = true) : s.dropWhile p = [] := by
  induction s with
  | nil => rfl
  | cons a r ih =>
    rw [List.dropWhile_cons_of_pos (h a (by simp)),
        ih (fun c hc => h c (by simp [hc]))]

/-- `takeWhile` over a satisfying block followed by a failing element
takes exactly the block. -/
theorem takeWhile_append_not (p : Char → Bool) (d : Str) (x : Char) (r : Str)
    (hd : ∀ c ∈ d, p c = true) (hx : p x = false) :
    (d ++ x :: r).takeWhile p = d := by
  induction d with
  | nil => simp [List.takeWhile, hx]
  | cons a t ih =>
    simp [List.takeWhile, hd a (by simp)]
    exact ih (fun c hc => hd c (by simp [hc]))

/-- `dropWhile` over a satisfying block followed by a failing element
drops exactly the block. -/
theorem dropWhile_append_not (p : Char → Bool) (d : Str) (x : Char) (r : Str)
    (hd : ∀ c ∈ d, p c = true) (hx : p x = false) :
    (d ++ x :: r).dropWhile p = x :: r := by
  induction d with
  | nil => simp [List.dropWhile, hx]
  | cons a t ih =>
    simp [List.dropWhile, hd a (by simp)]
    exact ih (fun c hc => hd c (by simp [hc]))

/-- JS `trim` is the identity on strings with no whitespace characters. -/
theorem jsTrim_eq_self (s : Str) (h : ∀ c ∈ s, c.isWhitespace = false) :
    jsTrim s = s := by
  unfold jsTrim
  rw [dropWhile_eq_self_of _ s h,
      dropWhile_eq_self_of _ s.reverse (fun c hc => h c (List.mem_reverse.mp hc)),
      List.reverse_reverse]

/-- A non-predicate element survives `dropWhile`. -/
theorem mem_dropWhile_of (p : Char → Bool) (s : Str) (c : Char)
    (hc : p c = false) (h : c ∈ s) : c ∈ s.dropWhile p := by
  induction s with
  | nil => exact absurd h (by simp)
  | cons a r ih =>
    by_cases ha : p a = true
    · rw [List.dropWhile_cons_of_pos ha]
      rcases List.mem_cons.mp h with rfl | hr
      · exact absurd ha (by simp [hc])
      · exact ih hr
    · rw [List.dropWhile_cons_of_neg ha]
      exact h

/-- A non-whitespace character of `s` survives JS `trim`. -/
theorem mem_jsTrim (s : Str) (c : Char) (hc : c.isWhitespace = false)
    (h : c ∈ s) : c ∈ jsTrim s := by
  unfold jsTrim
  rw [List.mem_reverse]
  exact mem_dropWhile_of _ _ c hc
    (List.mem_reverse.mpr (mem_dropWhile_of _ s c hc h))

/-- A decimal digit is not whitespace. -/
theorem not_ws_of_digit {c : Char} (h : c.isDigit = true) :
    c.isWhitespace = false := by
  cases hb : c.isWhitespace with
  | false => rfl
  | true =>
    exfalso
    simp [Char.isWhitespace] at hb
    rcases hb with (((h1 | h1) | h1) | h1) <;> subst h1 <;> exact absurd h (by decide)

/-- Every element of `takeWhile p s` satisfies `p`. -/
theorem mem_takeWhile_sat (p : Char → Bool) (s : Str) (c : Char)
    (h : c ∈ s.takeWhile p) : p c = true := by
  induction s with
  | nil => exact absurd h (by simp)
  | cons a r ih =>
    by_cases ha : p a = true
    · rw [List.takeWhile_cons_of_pos ha] at h
      rcases List.mem_cons.mp h with rfl | hr
      · exact ha
      · exact ih hr
    · rw [List.takeWhile_cons_of_neg ha] at h
      exact absurd h (by simp)

/-! ## Port validator lemmas -/

/-- On a digit string `a`, a dash, and a digit string `b`, the range regex
captures exactly `(a, b)`. -/
theorem rangeMatch_eq (a b : Str) (ha : a ≠ []) (hb : b ≠ [])
    (hda : ∀ c ∈ a, c.isDigit = true) (hdb : ∀ c ∈ b, c.isDigit = true) :
    rangeMatch (a ++ '-' :: b) = some (a, b) := by
  unfold rangeMatch
  rw [takeWhile_append_not _ a '-' b hda (by decide),
      dropWhile_append_not _ a '-' b hda (by decide)]
  obtain ⟨ah, at', rfl⟩ := List.exists_cons_of_ne_nil ha
  simp [takeWhile_all _ b hdb, dropWhile_all _ b hdb, hb]

/-- Soundness of the range regex parser: a match gives back the split of
the input into two digit runs around a dash. -/
theorem rangeMatch_eq_some (s a b : Str) (h : rangeMatch s = some (a, b)) :
    s = a ++ '-' :: b ∧ (∀ c ∈ a, c.isDigit = true) ∧ (∀ c ∈ b, c.isDigit = true) := by
  unfold rangeMatch at h
  split at h
  · simp at h
  · rename_i a' r heq1 heq2
    split at h
    · simp at h
    · rename_i hcond
      rw [Option.some_inj, Prod.mk.injEq] at h
      obtain ⟨rfl, rfl⟩ := h
      push_neg at hcond
      refine ⟨?_, ?_, ?_⟩
      · have hs := List.takeWhile_append_dropWhile (p := Char.isDigit) (l := s)
        have hr := List.takeWhile_append_dropWhile (p := Char.isDigit) (l := r)
        rw [hcond.2, List.append_nil] at hr
        rw [hr, ← heq1]
        exact hs.symm
      · exact fun c hc => mem_takeWhile_sat _ s c hc
      · exact fun c hc => mem_takeWhile_sat _ r c hc
  · simp at h

/-- `validatePortNumber` on a pure digit string reduces to the single-port
bounds check. -/
theorem validatePortNumber_digits (d : Str) (hne : d ≠ [])
    (hd : ∀ c ∈ d, c.isDigit = true) :
    validatePortNumber d =
      if parseNatDigits d < 1 ∨ 65535 < parseNatDigits d then
        ⟨false, some (strOf "Port must be between 1 and 65535"), none⟩
      else ⟨true, none, none⟩ := by
  have htr : jsTrim d = d := jsTrim_eq_self d (fun c hc => not_ws_of_digit (hd c hc))
  have hall : d.all Char.isDigit = true := List.all_eq_true.mpr hd
  simp [validatePortNumber, htr, hne, hall]

/-- `validatePortNumber` on `digits-digits` reduces to the range checks in
the source's order. -/
theorem validatePortNumber_range (a b : Str) (ha : a ≠ []) (hb : b ≠ [])
    (hda : ∀ c ∈ a, c.isDigit = true) (hdb : ∀ c ∈ b, c.isDigit = true) :
    validatePortNumber (a ++ '-' :: b) =
      if parseNatDigits a < 1 ∨ 65535 < parseNatDigits a ∨
         parseNatDigits b < 1 ∨ 65535 < parseNatDigits b then
        ⟨false, some (strOf "Ports must be between 1 and 65535"), none⟩
      else if parseNatDigits b ≤ parseNatDigits a then
        ⟨false, some (strOf "Range start must be less than end (e.g., 445-500, not 500-445)"), none⟩
      else ⟨true, none, none⟩ := by
  have hne2 : (a ++ '-' :: b) ≠ [] := by simp
  have hws : ∀ c ∈ a ++ '-' :: b, c.isWhitespace = false := by
    intro c hc
    rcases List.mem_append.mp hc with hca | hcb
    · exact not_ws_of_digit (hda c hca)
    · rcases List.mem_cons.mp hcb with rfl | hcb'
      · decide
      · exact not_ws_of_digit (hdb c hcb')
  have htr : jsTrim (a ++ '-' :: b) = a ++ '-' :: b := jsTrim_eq_self _ hws
  have hallf : (a ++ '-' :: b).all Char.isDigit = false := by
    cases hall : (a ++ '-' :: b).all Char.isDigit with
    | false => rfl
    | true =>
      have := List.all_eq_true.mp hall '-' (by simp)
      exact absurd this (by decide)
  simp [validatePortNumber, htr, hne2, hallf, rangeMatch_eq a b ha hb hda hdb]

/-- C5. `validatePortNumber` accepts a single port (a digit string) exactly
when its value is in `[1, 65535]`, and a range `start-end` (two digit
strings around a dash) exactly when both bounds are in `[1, 65535]` and
`start < end` strictly; equal or inverted bounds within range are rejected
with the dedicated start-must-be-less-than-end message.  The quoted
boundary examples are checked literally. -/
theorem validatePort_single_and_range :
    (∀ d : Str, d ≠ [] → (∀ c ∈ d, c.isDigit = true) →
      ((validatePortNumber d).valid = true ↔
        1 ≤ parseNatDigits d ∧ parseNatDigits d ≤ 65535)) ∧
    (∀ a b : Str, a ≠ [] → b ≠ [] →
      (∀ c ∈ a, c.isDigit = true) → (∀ c ∈ b, c.isDigit = true) →
      (((validatePortNumber (a ++ '-' :: b)).valid = true ↔
          1 ≤ parseNatDigits a ∧ parseNatDigits a ≤ 65535 ∧
          1 ≤ parseNatDigits b ∧ parseNatDigits b ≤ 65535 ∧
          parseNatDigits a < parseNatDigits b) ∧
        (1 ≤ parseNatDigits a → parseNatDigits a ≤ 65535 →
         1 ≤ parseNatDigits b → parseNatDigits b ≤ 65535 →
         parseNatDigits b ≤ parseNatDigits a →
         (validatePortNumber (a ++ '-' :: b)).error =
           some (strOf "Range start must be less than end (e.g., 445-500, not 500-445)")))) ∧
    (validatePortNumber (strOf "0")).valid = false ∧
    (validatePortNumber (strOf "1")).valid = true ∧
    (validatePortNumber (strOf "65535")).valid = true ∧
    (validatePortNumber (strOf "65536")).valid = false ∧
    (validatePortNumber (strOf "445-500")).valid = true ∧
    (validatePortNumber (strOf "500-445")).valid = false ∧
    (validatePortNumber (strOf "500-500")).valid = false := by
  refine ⟨?_, ?_, by decide, by decide, by decide, by decide, by decide, by decide, by decide⟩
  · intro d hne hd
    rw [validatePortNumber_digits d hne hd]
    by_cases h : parseNatDigits d < 1 ∨ 65535 < parseNatDigits d
    · rw [if_pos h]
      constructor
      · intro hv
        exact absurd hv (by decide)
      · intro hb
        omega
    · rw [if_neg h]
      constructor
      · intro _
        omega
      · intro _
        rfl
  · intro a b ha hb hda hdb
    rw [validatePortNumber_range a b ha hb hda hdb]
    constructor
    · by_cases h1 : parseNatDigits a < 1 ∨ 65535 < parseNatDigits a ∨
          parseNatDigits b < 1 ∨ 65535 < parseNatDigits b
      · rw [if_pos h1]
        constructor
        · intro hv
          exact absurd hv (by decide)
        · intro hbnd
          omega
      · rw [if_neg h1]
        by_cases h2 : parseNatDigits b ≤ parseNatDigits a
        · rw [if_pos h2]
          constructor
          · intro hv
            exact absurd hv (by decide)
          · intro hbnd
            omega
        · rw [if_neg h2]
          constructor
          · intro _
            omega
          · intro _
            rfl
    · intro ha1 ha2 hb1 hb2 hle
      rw [if_neg (by omega), if_pos hle]

/-- Witness for C5 at concrete inputs: `80` is a valid single port and the
inverted range `9-8` gets the dedicated message. -/
theorem validatePort_single_and_range_witness :
    (validatePortNumber (strOf "80")).valid = true ∧
    (validatePortNumber (strOf "9-8")).error =
      some (strOf "Range start must be less than end (e.g., 445-500, not 500-445)") := by
  constructor
  · exact (validatePort_single_and_range.1 (strOf "80") (by decide) (by decide)).mpr (by decide)
  · have h := (validatePort_single_and_range.2.1 (strOf "9") (strOf "8")
      (by decide) (by decide) (by decide) (by decide)).2
      (by decide) (by decide) (by decide) (by decide) (by decide)
    exact (by decide : strOf "9-8" = strOf "9" ++ '-' :: strOf "8") ▸ h

/-- The entries `validatePortNumber` checks in its list branch: the
trimmed input split on commas, each entry trimmed. -/
def portEntries (s : Str) : List Str := (jsSplit ',' (jsTrim s)).map jsTrim

/-- An entry passes the list branch's check: its `parseInt` value exists
(is not `NaN`) and lies in `[1, 65535]`. -/
def goodPortEntry (p : Str) : Bool :=
  match jsParseInt p with
  | none => false
  | some n => decide (1 ≤ n ∧ n ≤ 65535)

/-- The claim's wording for a list entry, stated from the spec: the entry
*is an integer* in `[1, 65535]`, i.e. a non-empty decimal digit string
whose value lies in the range. -/
def entryIsIntegerInRange (p : Str) : Prop :=
  p ≠ [] ∧ (∀ c ∈ p, c.isDigit = true) ∧
    1 ≤ parseNatDigits p ∧ parseNatDigits p ≤ 65535

instance (p : Str) : Decidable (entryIsIntegerInRange p) := by
  unfold entryIsIntegerInRange
  infer_instance

/-- One step of the list loop, with the parse result known. -/
theorem checkPorts_cons (p : Str) (rest : List Str) :
    checkPorts (p :: rest) =
      match jsParseInt p with
      | none => ⟨false, some (portListErr p), none⟩
      | some n =>
        if n < 1 ∨ 65535 < n then ⟨false, some (portListErr p), none⟩
        else checkPorts rest := rfl

/-- The list loop is valid exactly when every entry passes. -/
theorem checkPorts_valid_iff (l : List Str) :
    (checkPorts l).valid = true ↔ ∀ p ∈ l, goodPortEntry p = true := by
  induction l with
  | nil => simp [checkPorts]
  | cons p rest ih =>
    rw [checkPorts_cons]
    cases hp : jsParseInt p with
    | none =>
      simp only []
      constructor
      · intro hv
        simp at hv
      · intro h
        have := h p (by simp)
        rw [goodPortEntry, hp] at this
        exact absurd this (by decide)
    | some n =>
      simp only []
      by_cases hn : n < 1 ∨ 65535 < n
      · rw [if_pos hn]
        constructor
        · intro hv
          simp at hv
        · intro h
          have := h p (by simp)
          rw [goodPortEntry, hp] at this
          simp at this
          omega
      · rw [if_neg hn, ih]
        constructor
        · intro h q hq
          rcases List.mem_cons.mp hq with rfl | hq'
          · rw [goodPortEntry, hp]
            simp
            omega
          · exact h q hq'
        · intro h q hq
          exact h q (by simp [hq])

/-- The list loop reports the first failing entry. -/
theorem checkPorts_find (l : List Str) (p : Str)
    (h : l.find? (fun q => !goodPortEntry q) = some p) :
    checkPorts l = ⟨false, some (portListErr p), none⟩ := by
  induction l with
  | nil => simp [List.find?] at h
  | cons q rest ih =>
    by_cases hq : goodPortEntry q = true
    · rw [List.find?_cons_of_neg _ (by simp [hq])] at h
      rw [checkPorts_cons]
      rw [goodPortEntry] at hq
      cases hp : jsParseInt q with
      | none => rw [hp] at hq; simp at hq
      | some n =>
        rw [hp] at hq
        simp at hq
        simp only []
        rw [if_neg (by omega)]
        exact ih h
    · rw [List.find?_cons_of_pos _ (by simp [hq])] at h
      rw [Option.some_inj] at h
      subst h
      rw [checkPorts_cons]
      rw [goodPortEntry] at hq
      cases hp : jsParseInt q with
      | none => rfl
      | some n =>
        rw [hp] at hq
        simp at hq
        show (if n < 1 ∨ 65535 < n then (⟨false, some (portListErr q), none⟩ : ValidationResult)
              else checkPorts rest) = ⟨false, some (portListErr q), none⟩
        rw [if_pos (by omega)]

/-- A comma anywhere in the input sends `validatePortNumber` to its list
branch. -/
theorem validatePortNumber_comma (s : Str) (hc : ',' ∈ s) :
    validatePortNumber s = checkPorts (portEntries s) := by
  have hne : s ≠ [] := List.ne_nil_of_mem hc
  have hct : ',' ∈ jsTrim s := mem_jsTrim s ',' (by decide) hc
  have hallf : (jsTrim s).all Char.isDigit = false := by
    cases hall : (jsTrim s).all Char.isDigit with
    | false => rfl
    | true => exact absurd (List.all_eq_true.mp hall ',' hct) (by decide)
  have hrm : rangeMatch (jsTrim s) = none := by
    cases hr : rangeMatch (jsTrim s) with
    | none => rfl
    | some ab =>
      exfalso
      obtain ⟨hsplit, hda, hdb⟩ := rangeMatch_eq_some (jsTrim s) ab.1 ab.2 (by rw [hr])
      rw [hsplit] at hct
      rcases List.mem_append.mp hct with hca | hcb
      · exact absurd (hda ',' hca) (by decide)
      · rcases List.mem_cons.mp hcb with heq | hcb'
        · exact absurd heq (by decide)
        · exact absurd (hdb ',' hcb') (by decide)
  have hcc : (jsTrim s).contains ',' = true := by simpa using hct
  simp [validatePortNumber, hne, hallf, hrm, hcc, portEntries]
  exact fun h => absurd hct h

/-- C6 counterexample. `"80,12.5"` is accepted by `validatePortNumber`
although its entry `12.5` is not an integer: JS `parseInt` reads the
leading digits `12` and silently drops `.5`. -/
theorem validatePort_list_cex :
    validatePortNumber (strOf "80,12.5") = ⟨true, none, none⟩ ∧
    strOf "12.5" ∈ portEntries (strOf "80,12.5") ∧
    ¬ entryIsIntegerInRange (strOf "12.5") := by
  refine ⟨by decide, by decide, by decide⟩

/-- C6 (amended). A comma-containing input is treated as a comma-separated
list and is valid exactly when every (trimmed) entry has a `parseInt`
value — an optional sign and the entry's leading decimal-digit run (or
`0x` hex form), any trailing characters ignored — in `[1, 65535]`; the
first entry that fails makes the whole list invalid and is named in the
error message. -/
theorem validatePort_list_spec (s : Str) (hc : ',' ∈ s) :
    ((validatePortNumber s).valid = true ↔
      ∀ p ∈ portEntries s, goodPortEntry p = true) ∧
    (∀ p : Str, (portEntries s).find? (fun q => !goodPortEntry q) = some p →
      validatePortNumber s = ⟨false, some (portListErr p), none⟩) := by
  rw [validatePortNumber_comma s hc]
  exact ⟨checkPorts_valid_iff _, fun p hp => checkPorts_find _ p hp⟩

/-- Witness for C6 at a concrete input: `"21, 0, 80"` is invalid and the
error names the offending entry `0`. -/
theorem validatePort_list_spec_witness :
    validatePortNumber (strOf "21, 0, 80") =
      ⟨false, some (portListErr (strOf "0")), none⟩ := by
  exact (validatePort_list_spec (strOf "21, 0, 80") (by decide)).2 (strOf "0") (by decide)

/-! ## IP validator lemmas -/

/-- The claim's octet condition: a 1–3 digit group whose value is in
`[0, 255]` (the lower bound is automatic for `Nat`). -/
def octetOk (o : Str) : Prop :=
  o ≠ [] ∧ o.length ≤ 3 ∧ (∀ ch ∈ o, ch.isDigit = true) ∧ parseNatDigits o ≤ 255

instance (o : Str) : Decidable (octetOk o) := by
  unfold octetOk
  infer_instance

/-- The claim's CIDR-suffix shape: a 1–2 digit group. -/
def cidrOk (c : Str) : Prop :=
  c ≠ [] ∧ c.length ≤ 2 ∧ ∀ ch ∈ c, ch.isDigit = true

instance (c : Str) : Decidable (cidrOk c) := by
  unfold cidrOk
  infer_instance

/-- An octet group followed by a non-digit is captured exactly. -/
theorem takeOctet_append (d : Str) (x : Char) (r : Str) (hne : d ≠ [])
    (hlen : d.length ≤ 3) (hd : ∀ c ∈ d, c.isDigit = true) (hx : x.isDigit = false) :
    takeOctet (d ++ x :: r) = some (d, x :: r) := by
  unfold takeOctet
  rw [takeWhile_append_not _ d x r hd (by simp [hx]),
      dropWhile_append_not _ d x r hd (by simp [hx])]
  rw [if_neg (by push_neg; exact ⟨hne, by omega⟩)]

/-- An octet group at the end of the input is captured exactly. -/
theorem takeOctet_all (d : Str) (hne : d ≠ []) (hlen : d.length ≤ 3)
    (hd : ∀ c ∈ d, c.isDigit = true) :
    takeOctet d = some (d, []) := by
  unfold takeOctet
  rw [takeWhile_all _ d hd, dropWhile_all _ d hd]
  rw [if_neg (by push_neg; exact ⟨hne, by omega⟩)]

/-- The CIDR regex captures the four octet groups and the suffix on a
well-shaped input. -/
theorem cidrMatch_eq (o1 o2 o3 o4 c : Str)
    (h1 : octetOk o1) (h2 : octetOk o2) (h3 : octetOk o3) (h4 : octetOk o4)
    (hc : cidrOk c) :
    cidrMatch (o1 ++ '.' :: (o2 ++ '.' :: (o3 ++ '.' :: (o4 ++ '/' :: c)))) =
      some (o1, o2, o3, o4, c) := by
  obtain ⟨hne1, hlen1, hd1, -⟩ := h1
  obtain ⟨hne2, hlen2, hd2, -⟩ := h2
  obtain ⟨hne3, hlen3, hd3, -⟩ := h3
  obtain ⟨hne4, hlen4, hd4, -⟩ := h4
  obtain ⟨hnec, hlenc, hdc⟩ := hc
  unfold cidrMatch
  rw [takeOctet_append o1 '.' _ hne1 hlen1 hd1 (by decide)]
  simp only []
  rw [takeOctet_append o2 '.' _ hne2 hlen2 hd2 (by decide)]
  simp only []
  rw [takeOctet_append o3 '.' _ hne3 hlen3 hd3 (by decide)]
  simp only []
  rw [takeOctet_append o4 '/' _ hne4 hlen4 hd4 (by decide)]
  simp only []
  rw [takeWhile_all _ c hdc, dropWhile_all _ c hdc]
  rw [if_neg (by push_neg; exact ⟨hnec, by omega, by simp⟩)]

/-- The plain-IP regex captures the four octet groups on a well-shaped
input. -/
theorem ipMatch_eq (o1 o2 o3 o4 : Str)
    (h1 : octetOk o1) (h2 : octetOk o2) (h3 : octetOk o3) (h4 : octetOk o4) :
    ipMatch (o1 ++ '.' :: (o2 ++ '.' :: (o3 ++ '.' :: o4))) = some (o1, o2, o3, o4) := by
  obtain ⟨hne1, hlen1, hd1, -⟩ := h1
  obtain ⟨hne2, hlen2, hd2, -⟩ := h2
  obtain ⟨hne3, hlen3, hd3, -⟩ := h3
  obtain ⟨hne4, hlen4, hd4, -⟩ := h4
  unfold ipMatch
  rw [takeOctet_append o1 '.' _ hne1 hlen1 hd1 (by decide)]
  simp only []
  rw [takeOctet_append o2 '.' _ hne2 hlen2 hd2 (by decide)]
  simp only []
  rw [takeOctet_append o3 '.' _ hne3 hlen3 hd3 (by decide)]
  simp only []
  rw [takeOctet_all o4 hne4 hlen4 hd4]

/-- The CIDR regex rejects a bare four-octet input (no slash). -/
theorem cidrMatch_bare (o1 o2 o3 o4 : Str)
    (h1 : octetOk o1) (h2 : octetOk o2) (h3 : octetOk o3) (h4 : octetOk o4) :
    cidrMatch (o1 ++ '.' :: (o2 ++ '.' :: (o3 ++ '.' :: o4))) = none := by
  obtain ⟨hne1, hlen1, hd1, -⟩ := h1
  obtain ⟨hne2, hlen2, hd2, -⟩ := h2
  obtain ⟨hne3, hlen3, hd3, -⟩ := h3
  obtain ⟨hne4, hlen4, hd4, -⟩ := h4
  unfold cidrMatch
  rw [takeOctet_append o1 '.' _ hne1 hlen1 hd1 (by decide)]
  simp only []
  rw [takeOctet_append o2 '.' _ hne2 hlen2 hd2 (by decide)]
  simp only []
  rw [takeOctet_append o3 '.' _ hne3 hlen3 hd3 (by decide)]
  simp only []
  rw [takeOctet_all o4 hne4 hlen4 hd4]

/-- C4. `validateIPAddress` (test-app copy): a bare four-octet address
with octets in `[0, 255]` is valid with normalized value the trimmed
input plus `/32`; a well-shaped address with CIDR suffix `n` is valid iff
`n ∈ [22, 32]` (rejected with the CIDR-specific message otherwise) and,
when valid, normalized to the trimmed input unchanged; and
`validateIPAddress "192.168.1.1"` is `{valid: true, normalizedValue:
"192.168.1.1/32"}`. -/
theorem validateIp_spec :
    (∀ value o1 o2 o3 o4 : Str,
      jsTrim value = o1 ++ '.' :: (o2 ++ '.' :: (o3 ++ '.' :: o4)) →
      octetOk o1 → octetOk o2 → octetOk o3 → octetOk o4 →
      validateIPAddress value =
        ⟨true, none, some (jsTrim value ++ strOf "/32")⟩) ∧
    (∀ value o1 o2 o3 o4 c : Str,
      jsTrim value = o1 ++ '.' :: (o2 ++ '.' :: (o3 ++ '.' :: (o4 ++ '/' :: c))) →
      octetOk o1 → octetOk o2 → octetOk o3 → octetOk o4 → cidrOk c →
      validateIPAddress value =
        (if 22 ≤ parseNatDigits c ∧ parseNatDigits c ≤ 32 then
          ⟨true, none, some (jsTrim value)⟩
        else
          ⟨false, some (strOf "CIDR must be between 22 and 32"), none⟩)) ∧
    validateIPAddress (strOf "192.168.1.1") =
      ⟨true, none, some (strOf "192.168.1.1/32")⟩ := by
  refine ⟨?_, ?_, by decide⟩
  · intro value o1 o2 o3 o4 heq h1 h2 h3 h4
    have hvne : value ≠ [] := by
      intro hv
      rw [hv] at heq
      simp [jsTrim] at heq
    have hany : ([parseNatDigits o1, parseNatDigits o2, parseNatDigits o3,
        parseNatDigits o4].any fun o => 255 < o) = false := by
      have b1 := h1.2.2.2
      have b2 := h2.2.2.2
      have b3 := h3.2.2.2
      have b4 := h4.2.2.2
      simp
      omega
    simp [validateIPAddress, hvne, heq, cidrMatch_bare o1 o2 o3 o4 h1 h2 h3 h4,
          ipMatch_eq o1 o2 o3 o4 h1 h2 h3 h4, hany]
  · intro value o1 o2 o3 o4 c heq h1 h2 h3 h4 hc
    have hvne : value ≠ [] := by
      intro hv
      rw [hv] at heq
      simp [jsTrim] at heq
    have hany : ([parseNatDigits o1, parseNatDigits o2, parseNatDigits o3,
        parseNatDigits o4].any fun o => 255 < o) = false := by
      have b1 := h1.2.2.2
      have b2 := h2.2.2.2
      have b3 := h3.2.2.2
      have b4 := h4.2.2.2
      simp
      omega
    by_cases hcn : parseNatDigits c < 22 ∨ 32 < parseNatDigits c
    · rw [if_neg (by omega)]
      simp [validateIPAddress, hvne, heq, cidrMatch_eq o1 o2 o3 o4 c h1 h2 h3 h4 hc,
            hany, hcn]
    · rw [if_pos (by omega)]
      simp [validateIPAddress, hvne, heq, cidrMatch_eq o1 o2 o3 o4 c h1 h2 h3 h4 hc,
            hany, hcn]

/-- Witness for C4 at concrete inputs: a bare address gets `/32`
appended, a `/24` suffix is kept, and a `/21` suffix is rejected with the
CIDR message. -/
theorem validateIp_spec_witness :
    validateIPAddress (strOf "10.0.0.1") = ⟨true, none, some (strOf "10.0.0.1/32")⟩ ∧
    validateIPAddress (strOf "192.168.1.0/24") =
      ⟨true, none, some (strOf "192.168.1.0/24")⟩ ∧
    validateIPAddress (strOf "192.168.1.0/21") =
      ⟨false, some (strOf "CIDR must be between 22 and 32"), none⟩ := by
  refine ⟨?_, ?_, ?_⟩
  · have h := validateIp_spec.1 (strOf "10.0.0.1") (strOf "10") (strOf "0") (strOf "0")
      (strOf "1") (by decide) (by decide) (by decide) (by decide) (by decide)
    exact h.trans (by decide)
  · have h := validateIp_spec.2.1 (strOf "192.168.1.0/24") (strOf "192") (strOf "168")
      (strOf "1") (strOf "0") (strOf "24") (by decide) (by decide) (by decide) (by decide)
      (by decide) (by decide)
    exact h.trans (by decide)
  · have h := validateIp_spec.2.1 (strOf "192.168.1.0/21") (strOf "192") (strOf "168")
      (strOf "1") (strOf "0") (strOf "21") (by decide) (by decide) (by decide) (by decide)
      (by decide) (by decide)
    exact h.trans (by decide)

/-! ## matchOperatorPrefix -/

/-- The boolean prefix test coincides with the existence of a suffix. -/
theorem isPrefixOf_iff_append (a b : Str) :
    a.isPrefixOf b = true ↔ ∃ t, b = a ++ t := by
  induction a generalizing b with
  | nil => simp [List.isPrefixOf]
  | cons x xs ih =>
    cases b with
    | nil => simp [List.isPrefixOf]
    | cons y ys =>
      simp only [List.isPrefixOf, Bool.and_eq_true, beq_iff_eq, ih]
      constructor
      · rintro ⟨rfl, t, rfl⟩
        exact ⟨t, rfl⟩
      · rintro ⟨t, ht⟩
        rw [List.cons_append] at ht
        obtain ⟨rfl, rfl⟩ := List.cons.injEq .. ▸ ht
        exact ⟨rfl, t, rfl⟩

/-- The operator loop returns the text as soon as some operator has the
(lower-cased) text as a prefix. -/
theorem mopAux_some (text : Str) (ops : List Str)
    (h : ∃ op ∈ ops, startsWith (toLowerStr op) (toLowerStr text) = true) :
    mopAux text ops = some text := by
  induction ops with
  | nil => simp at h
  | cons op rest ih =>
    unfold mopAux
    by_cases hop : startsWith (toLowerStr op) (toLowerStr text) = true
    · rw [if_pos hop]
    · rw [if_neg hop]
      apply ih
      rcases h with ⟨q, hq, hqs⟩
      rcases List.mem_cons.mp hq with rfl | hq'
      · exact absurd hqs hop
      · exact ⟨q, hq', hqs⟩

/-- The operator loop returns none when no operator has the text as a
prefix. -/
theorem mopAux_none (text : Str) (ops : List Str)
    (h : ∀ op ∈ ops, startsWith (toLowerStr op) (toLowerStr text) = false) :
    mopAux text ops = none := by
  induction ops with
  | nil => rfl
  | cons op rest ih =>
    unfold mopAux
    rw [if_neg (by simp [h op (by simp)])]
    exact ih (fun q hq => h q (by simp [hq]))

/-- C7 counterexample. With operators `["="]` and text `" ="` the trimmed
text `"="` *is* (case-insensitively) a prefix of the operator `=` and is
non-empty, yet `matchOperatorPrefix` returns none: the loop tests the raw,
untrimmed text. -/
theorem matchOperatorPrefix_cex :
    matchOperatorPrefix [strOf "="] (strOf " =") = none ∧
    jsTrim (strOf " =") ≠ [] ∧
    (∃ t, toLowerStr (strOf "=") = toLowerStr (jsTrim (strOf " =")) ++ t) := by
  refine ⟨by decide, by decide, [], by decide⟩

/-- C7 (amended). `matchOperatorPrefix` returns the empty string when the
trimmed text is empty; otherwise it returns the text unchanged whenever
the *untrimmed* text is, case-insensitively, a prefix of some operator's
symbol, and none when the untrimmed text is the start of no operator. -/
theorem matchOperatorPrefix_spec (allowedOperators : List Str) (text : Str) :
    (jsTrim text = [] → matchOperatorPrefix allowedOperators text = some []) ∧
    (jsTrim text ≠ [] →
      ((∃ op ∈ allowedOperators, ∃ t, toLowerStr op = toLowerStr text ++ t) →
        matchOperatorPrefix allowedOperators text = some text) ∧
      ((∀ op ∈ allowedOperators, ¬ ∃ t, toLowerStr op = toLowerStr text ++ t) →
        matchOperatorPrefix allowedOperators text = none)) := by
  constructor
  · intro h
    unfold matchOperatorPrefix
    rw [if_pos (by simp [h])]
  · intro hne
    have hcond : ¬ (jsTrim text).length = 0 := by
      simpa [List.length_eq_zero] using hne
    constructor
    · intro hex
      unfold matchOperatorPrefix
      rw [if_neg hcond]
      apply mopAux_some
      rcases hex with ⟨op, hop, t, ht⟩
      exact ⟨op, hop, (isPrefixOf_iff_append _ _).mpr ⟨t, ht⟩⟩
    · intro hall
      unfold matchOperatorPrefix
      rw [if_neg hcond]
      apply mopAux_none
      intro op hop
      cases hs : startsWith (toLowerStr op) (toLowerStr text) with
      | false => rfl
      | true =>
        exact absurd ((isPrefixOf_iff_append _ _).mp hs) (by
          intro ⟨t, ht⟩
          exact hall op hop ⟨t, ht⟩)

/-- Witness for C7 at concrete inputs: `"!"` is a plausible operator start
and is returned unchanged; `"x"` is not and yields none; whitespace-only
text yields the empty string. -/
theorem matchOperatorPrefix_spec_witness :
    matchOperatorPrefix [strOf ":", strOf "!:"] (strOf "!") = some (strOf "!") ∧
    matchOperatorPrefix [strOf ":", strOf "!:"] (strOf "x") = none ∧
    matchOperatorPrefix [strOf ":", strOf "!:"] (strOf "   ") = some [] := by
  refine ⟨?_, ?_, ?_⟩
  · exact ((matchOperatorPrefix_spec [strOf ":", strOf "!:"] (strOf "!")).2
      (by decide)).1 ⟨strOf "!:", by decide, strOf ":", by decide⟩
  · refine ((matchOperatorPrefix_spec [strOf ":", strOf "!:"] (strOf "x")).2
      (by decide)).2 ?_
    intro op hop
    rintro ⟨t, ht⟩
    rcases List.mem_cons.mp hop with rfl | hop'
    · rw [show toLowerStr (strOf ":") = strOf ":" from by decide,
          show toLowerStr (strOf "x") = strOf "x" from by decide] at ht
      simp [strOf] at ht
    · rcases List.mem_cons.mp hop' with rfl | hop''
      · rw [show toLowerStr (strOf "!:") = strOf "!:" from by decide,
            show toLowerStr (strOf "x") = strOf "x" from by decide] at ht
        simp [strOf] at ht
      · simp at hop''
  · exact (matchOperatorPrefix_spec [strOf ":", strOf "!:"] (strOf "   ")).1 (by decide)

/-! ## matchOperator and parseText -/

/-- Loop invariant of `matchOperator`: a returned operator was the
accumulator or comes from the list, case-insensitively prefixes the
(lower-cased) text, and is non-empty. -/
theorem moAux_sound (ltext : Str) (l : List Str) (m : Nat) (acc : Option Str) (op : Str)
    (h : moAux ltext l m acc = some op) :
    acc = some op ∨
      (op ∈ l ∧ startsWith ltext (toLowerStr op) = true ∧ 0 < op.length) := by
  induction l generalizing m acc with
  | nil => exact Or.inl h
  | cons q rest ih =>
    unfold moAux at h
    by_cases hc : m < q.length ∧ startsWith ltext (toLowerStr q) = true
    · rw [if_pos hc] at h
      rcases ih _ _ h with h1 | h2
      · rw [Option.some_inj] at h1
        subst h1
        exact Or.inr ⟨by simp, hc.2, by omega⟩
      · exact Or.inr ⟨by simp [h2.1], h2.2⟩
    · rw [if_neg hc] at h
      rcases ih _ _ h with h1 | h2
      · exact Or.inl h1
      · exact Or.inr ⟨by simp [h2.1], h2.2⟩

/-- A successful `matchOperator` returns one of the allowed operators, a
non-empty case-insensitive prefix of the text. -/
theorem matchOperator_sound (ops : List Str) (t op : Str)
    (h : matchOperator ops t = some op) :
    op ∈ ops ∧ (toLowerStr op).isPrefixOf (toLowerStr t) = true ∧ 0 < op.length := by
  rcases moAux_sound (toLowerStr t) ops 0 none op h with h1 | h2
  · simp at h1
  · exact h2

/-- Every allowed operator is one of the ten canonical symbols. -/
theorem getAllowedOperators_subset (property : Property) (op : Str)
    (h : op ∈ getAllowedOperators property) : op ∈ operatorOrder :=
  List.mem_of_mem_filter h

/-- The ten operator symbols are lower-case-invariant, space-free,
non-empty, and contain no character in the lower-case letter range. -/
theorem operatorOrder_chars : ∀ op ∈ operatorOrder,
    toLowerStr op = op ∧
    (∀ c ∈ op, c ≠ ' ' ∧ ¬(97 ≤ c.toNat ∧ c.toNat ≤ 122)) ∧ op ≠ [] := by decide

/-- `Char.toLower` only moves characters into the lower-case letter
range, so a character outside it is its own only pre-image. -/
theorem toLower_eq_of_small {c s : Char} (hs : ¬(97 ≤ s.toNat ∧ s.toNat ≤ 122))
    (h : Char.toLower c = s) : c = s := by
  simp only [Char.toLower] at h
  split at h
  · rename_i hn
    exfalso
    have hv : (c.toNat + 32).isValidChar := by
      unfold Nat.isValidChar
      exact Or.inl (by omega)
    have htn : (Char.ofNat (c.toNat + 32)).toNat = c.toNat + 32 := by
      unfold Char.ofNat
      rw [dif_pos hv]
      rfl
    rw [h] at htn
    exact hs ⟨by omega, by omega⟩
  · exact h

/-- If the lower-casing of `rest` extends a symbol string (no lower-case
letters), then `rest` itself extends it. -/
theorem append_of_toLower_append (op : Str)
    (hsym : ∀ c ∈ op, ¬(97 ≤ c.toNat ∧ c.toNat ≤ 122)) :
    ∀ rest t : Str, toLowerStr rest = op ++ t → ∃ u, rest = op ++ u := by
  induction op with
  | nil => exact fun rest t _ => ⟨rest, rfl⟩
  | cons x xs ih =>
    intro rest t ht
    cases rest with
    | nil => simp [toLowerStr] at ht
    | cons r rs =>
      simp only [toLowerStr, List.map_cons, List.cons_append] at ht
      obtain ⟨h1, h2⟩ := List.cons.injEq .. ▸ ht
      have hx : r = x := toLower_eq_of_small (hsym x (by simp)) h1
      obtain ⟨u, hu⟩ := ih (fun c hc => hsym c (by simp [hc])) rs t h2
      exact ⟨u, by rw [hx, hu, List.cons_append]⟩

/-- The first occurrence of a non-space-initial operator in
`spaces ++ operator ++ v` is right after the spaces. -/
theorem jsIndexOfFrom_spaces (spaces op v : Str) (i : Nat)
    (hsp : ∀ c ∈ spaces, c = ' ') (hop : ∃ x xs, op = x :: xs ∧ x ≠ ' ') :
    jsIndexOfFrom (spaces ++ (op ++ v)) op i = some (i + spaces.length) := by
  induction spaces generalizing i with
  | nil =>
    unfold jsIndexOfFrom
    simp only [List.nil_append]
    rw [if_pos ((isPrefixOf_iff_append _ _).mpr ⟨v, rfl⟩)]
    simp
  | cons c cs ih =>
    have hc : c = ' ' := hsp c (by simp)
    have hnp : op.isPrefixOf (c :: (cs ++ (op ++ v))) = false := by
      obtain ⟨x, xs, rfl, hx⟩ := hop
      simp only [List.isPrefixOf]
      have : (x == c) = false := by simp [hc, hx]
      rw [this, Bool.false_and]
    unfold jsIndexOfFrom
    rw [List.cons_append, if_neg (by simp [hnp])]
    show jsIndexOfFrom (cs ++ (op ++ v)) op (i + 1) = some (i + (c :: cs).length)
    rw [ih _ (fun d hd => hsp d (by simp [hd]))]
    rw [Option.some_inj]
    simp
    omega

/-- `removeOperator` on leading spaces, the operator, and a tail strips
the spaces, the operator and at most one following space. -/
theorem removeOperator_spec (spaces op v : Str)
    (hsp : ∀ c ∈ spaces, c = ' ') (hop : ∃ x xs, op = x :: xs ∧ x ≠ ' ') :
    removeOperator (spaces ++ (op ++ v)) op =
      match v with
      | ' ' :: rest => rest
      | s => s := by
  have hdrop : (spaces ++ (op ++ v)).drop (spaces.length + op.length) = v := by
    rw [← List.append_assoc, ← List.length_append]
    exact List.drop_left _ _
  have hslice : jsSliceFrom (spaces ++ (op ++ v))
      (((0 + spaces.length : Nat) : Int) + (op.length : Int)) = v := by
    unfold jsSliceFrom
    rw [if_neg (by omega)]
    have : ((((0 + spaces.length : Nat) : Int)) + (op.length : Int)).toNat =
        spaces.length + op.length := by omega
    rw [this, hdrop]
  simp only [removeOperator, jsIndexOfFrom_spaces spaces op v 0 hsp hop]
  rw [hslice]

/-- C1. When a property matches the text and, after stripping the matched
label and the leading spaces, a full operator from the property's allowed
set matches, `parseText` returns the `property` step with that property,
that operator, and as value the remainder after stripping the operator
and at most one following separator space (further spaces stay in the
value). -/
theorem parseText_property_step (filteringText : Str)
    (filteringProperties : List Property) (freeTextFiltering : FreeTextFiltering)
    (property : Property) (operator : Str)
    (hp : matchFilteringProperty filteringProperties filteringText = some property)
    (hop : matchOperator (getAllowedOperators property)
        (trimStart (filteringText.drop property.propertyLabel.length)) = some operator) :
    parseText filteringText filteringProperties freeTextFiltering =
      ParsedText.property property operator
        (match (trimStart (filteringText.drop property.propertyLabel.length)).drop
            operator.length with
         | ' ' :: rest => rest
         | s => s) := by
  obtain ⟨hmem, hpre, hlen⟩ := matchOperator_sound _ _ _ hop
  have hord : operator ∈ operatorOrder := getAllowedOperators_subset property operator hmem
  obtain ⟨hfix, hchar, hne⟩ := operatorOrder_chars operator hord
  rw [hfix] at hpre
  obtain ⟨t0, ht0⟩ := (isPrefixOf_iff_append _ _).mp hpre
  obtain ⟨u, hu⟩ := append_of_toLower_append operator
    (fun c hc => (hchar c hc).2) _ t0 ht0
  have hsp : ∀ c ∈ (filteringText.drop property.propertyLabel.length).takeWhile
      (fun c => c == ' '), c = ' ' := by
    intro c hc
    simpa using mem_takeWhile_sat _ _ c hc
  have hopx : ∃ x xs, operator = x :: xs ∧ x ≠ ' ' := by
    cases hcase : operator with
    | nil => exact absurd hcase hne
    | cons x xs =>
      refine ⟨x, xs, rfl, ?_⟩
      exact (hchar x (by rw [hcase]; simp)).1
  have hsplitTwo : filteringText.drop property.propertyLabel.length =
      (filteringText.drop property.propertyLabel.length).takeWhile (fun c => c == ' ') ++
        trimStart (filteringText.drop property.propertyLabel.length) :=
    (List.takeWhile_append_dropWhile ..).symm
  have hro := removeOperator_spec
    ((filteringText.drop property.propertyLabel.length).takeWhile (fun c => c == ' '))
    operator u hsp hopx
  rw [← hu, ← hsplitTwo] at hro
  have hdropRest : (trimStart (filteringText.drop property.propertyLabel.length)).drop
      operator.length = u := by
    rw [hu]
    exact List.drop_left _ _
  simp only [parseText, hp, hop]
  rw [hro, hdropRest]
  rfl

/-- Witness for C1 at the claim's concrete input:
`parseText "Status = active"` with the `Status` property yields the
`property` step with operator `=` and value `active`. -/
theorem parseText_property_step_witness :
    parseText (strOf "Status = active")
      [{ key := strOf "status", propertyLabel := strOf "Status",
         operators := [strOf "=", strOf "!="], defaultOperator := strOf "=" }]
      ⟨false, [strOf ":", strOf "!:"], strOf ":"⟩ =
      ParsedText.property
        { key := strOf "status", propertyLabel := strOf "Status",
          operators := [strOf "=", strOf "!="], defaultOperator := strOf "=" }
        (strOf "=") (strOf "active") := by
  have h := parseText_property_step (strOf "Status = active")
    [{ key := strOf "status", propertyLabel := strOf "Status",
       operators := [strOf "=", strOf "!="], defaultOperator := strOf "=" }]
    ⟨false, [strOf ":", strOf "!:"], strOf ":"⟩
    { key := strOf "status", propertyLabel := strOf "Status",
      operators := [strOf "=", strOf "!="], defaultOperator := strOf "=" }
    (strOf "=") (by decide) (by decide)
  exact h.trans (by decide)

/-! ## matchFilteringProperty -/

/-- Case-sensitive label-prefix match. -/
def csMatch (text : Str) (p : Property) : Bool := startsWith text p.propertyLabel

/-- Case-insensitive label-prefix match. -/
def ciMatch (text : Str) (p : Property) : Bool :=
  startsWith (toLowerStr text) (toLowerStr p.propertyLabel)

/-- One step of the `matchFilteringProperty` loop. -/
theorem mfpAux_cons (text : Str) (r : Property) (rest : List Property) (m : Nat)
    (acc : Option Property) :
    mfpAux text (r :: rest) m acc =
      if mfpCond text m r then mfpAux text rest r.propertyLabel.length (some r)
      else mfpAux text rest m acc := rfl

/-- The loop distributes over list append, threading its state. -/
theorem mfpAux_append (text : Str) (l1 l2 : List Property) (m : Nat)
    (acc : Option Property) :
    mfpAux text (l1 ++ l2) m acc =
      mfpAux text l2 (mfpAux text l1 m acc).1 (mfpAux text l1 m acc).2 := by
  induction l1 generalizing m acc with
  | nil => rfl
  | cons p rest ih =>
    rw [List.cons_append, mfpAux_cons, mfpAux_cons]
    by_cases hc : mfpCond text m p
    · rw [if_pos hc, if_pos hc, ih]
    · rw [if_neg hc, if_neg hc, ih]

/-- The running maximum never decreases. -/
theorem mfpAux_max_mono (text : Str) (l : List Property) (m : Nat)
    (acc : Option Property) : m ≤ (mfpAux text l m acc).1 := by
  induction l generalizing m acc with
  | nil => exact Nat.le_refl m
  | cons p rest ih =>
    rw [mfpAux_cons]
    by_cases hc : mfpCond text m p
    · rw [if_pos hc]
      rcases hc with ⟨hle, -⟩ | ⟨hlt, -⟩
      · exact le_trans hle (ih _ _)
      · exact le_trans (le_of_lt hlt) (ih _ _)
    · rw [if_neg hc]
      exact ih _ _

/-- An already-found match is never dropped. -/
theorem mfpAux_isSome (text : Str) (l : List Property) (m : Nat) (p : Property) :
    ∃ q, (mfpAux text l m (some p)).2 = some q := by
  induction l generalizing m p with
  | nil => exact ⟨p, rfl⟩
  | cons r rest ih =>
    rw [mfpAux_cons]
    by_cases hc : mfpCond text m r
    · rw [if_pos hc]
      exact ih _ _
    · rw [if_neg hc]
      exact ih _ _

/-- The loop's state invariant: an empty accumulator carries maximum 0,
and a found property carries its own label length as the maximum, is a
(case-sensitive or case-insensitive) match, and comes from the scanned
list or the initial accumulator. -/
theorem mfpAux_inv (text : Str) (l : List Property) (m : Nat) (acc : Option Property)
    (h0 : acc = none → m = 0)
    (hs : ∀ p, acc = some p →
      m = p.propertyLabel.length ∧ (csMatch text p = true ∨ ciMatch text p = true)) :
    ((mfpAux text l m acc).2 = none → (mfpAux text l m acc).1 = 0) ∧
    (∀ p, (mfpAux text l m acc).2 = some p →
      (mfpAux text l m acc).1 = p.propertyLabel.length ∧
      (csMatch text p = true ∨ ciMatch text p = true) ∧
      (p ∈ l ∨ acc = some p)) := by
  induction l generalizing m acc with
  | nil =>
    refine ⟨h0, fun p hp => ?_⟩
    obtain ⟨h1, h2⟩ := hs p hp
    exact ⟨h1, h2, Or.inr hp⟩
  | cons r rest ih =>
    rw [mfpAux_cons]
    by_cases hc : mfpCond text m r
    · rw [if_pos hc]
      have hmr : csMatch text r = true ∨ ciMatch text r = true := by
        rcases hc with ⟨-, hcs⟩ | ⟨-, hci⟩
        · exact Or.inl hcs
        · exact Or.inr hci
      obtain ⟨g0, gs⟩ := ih r.propertyLabel.length (some r)
        (by intro h; simp at h)
        (by intro p hp; rw [Option.some_inj] at hp; subst hp; exact ⟨rfl, hmr⟩)
      refine ⟨g0, fun p hp => ?_⟩
      obtain ⟨g1, g2, g3⟩ := gs p hp
      refine ⟨g1, g2, ?_⟩
      rcases g3 with h | h
      · exact Or.inl (by simp [h])
      · rw [Option.some_inj] at h
        subst h
        exact Or.inl (by simp)
    · rw [if_neg hc]
      obtain ⟨g0, gs⟩ := ih m acc h0 hs
      refine ⟨g0, fun p hp => ?_⟩
      obtain ⟨g1, g2, g3⟩ := gs p hp
      refine ⟨g1, g2, ?_⟩
      rcases g3 with h | h
      · exact Or.inl (by simp [h])
      · exact Or.inr h

/-- Nothing changes while no element matches at all. -/
theorem mfpAux_none_pres (text : Str) (l : List Property) (m : Nat)
    (acc : Option Property)
    (h : ∀ p ∈ l, csMatch text p = false ∧ ciMatch text p = false) :
    mfpAux text l m acc = (m, acc) := by
  induction l generalizing m acc with
  | nil => rfl
  | cons r rest ih =>
    rw [mfpAux_cons]
    obtain ⟨hcs, hci⟩ := h r (by simp)
    rw [if_neg ?_]
    · exact ih _ _ (fun p hp => h p (by simp [hp]))
    · rintro (⟨-, hc⟩ | ⟨-, hc⟩)
      · rw [csMatch] at hcs
        exact absurd hc (by simp [hcs])
      · rw [ciMatch] at hci
        exact absurd hc (by simp [hci])

/-- Nothing changes while no element passes the acceptance condition. -/
theorem mfpAux_fail_pres (text : Str) (l : List Property) (m : Nat)
    (acc : Option Property)
    (h : ∀ p ∈ l, ¬ mfpCond text m p) :
    mfpAux text l m acc = (m, acc) := by
  induction l with
  | nil => rfl
  | cons r rest ih =>
    rw [mfpAux_cons]
    rw [if_neg (h r (by simp))]
    exact ih (fun p hp => h p (by simp [hp]))

/-- As soon as some element matches, the result is not `none`. -/
theorem mfpAux_some_of_match (text : Str) (l : List Property) (m : Nat)
    (acc : Option Property) (h0 : acc = none → m = 0)
    (h : ∃ p ∈ l, csMatch text p = true ∨ ciMatch text p = true) :
    ∃ q, (mfpAux text l m acc).2 = some q := by
  induction l generalizing m acc with
  | nil => simp at h
  | cons r rest ih =>
    rw [mfpAux_cons]
    by_cases hc : mfpCond text m r
    · rw [if_pos hc]
      exact mfpAux_isSome text rest _ r
    · rw [if_neg hc]
      cases hacc : acc with
      | some a =>
        exact mfpAux_isSome text rest _ a
      | none =>
        have hm0 : m = 0 := h0 hacc
        subst hm0
        rcases h with ⟨p, hp, hmatch⟩
        rcases List.mem_cons.mp hp with rfl | hp'
        · exfalso
          apply hc
          rcases hmatch with hcs | hci
          · exact Or.inl ⟨Nat.zero_le _, hcs⟩
          · by_cases hlen : 0 < p.propertyLabel.length
            · exact Or.inr ⟨hlen, hci⟩
            · have hlab : p.propertyLabel = [] := by
                cases hl : p.propertyLabel with
                | nil => rfl
                | cons a b => rw [hl] at hlen; simp at hlen
              refine Or.inl ⟨Nat.zero_le _, ?_⟩
              rw [hlab]
              simp [startsWith, List.isPrefixOf]
        · exact ih _ _ (fun _ => rfl) ⟨p, hp', hmatch⟩

/-- The final maximum dominates the label length of every match in the
list. -/
theorem mfpAux_max_ge (text : Str) (l : List Property) (m : Nat)
    (acc : Option Property) :
    ∀ p ∈ l, (csMatch text p = true ∨ ciMatch text p = true) →
      p.propertyLabel.length ≤ (mfpAux text l m acc).1 := by
  induction l generalizing m acc with
  | nil => simp
  | cons r rest ih =>
    intro p hp hmatch
    rw [mfpAux_cons]
    by_cases hc : mfpCond text m r
    · rw [if_pos hc]
      rcases List.mem_cons.mp hp with rfl | hp'
      · exact mfpAux_max_mono text rest _ _
      · exact ih _ _ p hp' hmatch
    · rw [if_neg hc]
      rcases List.mem_cons.mp hp with rfl | hp'
      · have hle : p.propertyLabel.length ≤ m := by
          rcases hmatch with hcs | hci
          · by_contra hgt
            exact hc (Or.inl ⟨by omega, hcs⟩)
          · by_contra hgt
            exact hc (Or.inr ⟨by omega, hci⟩)
        exact le_trans hle (mfpAux_max_mono text rest _ _)
      · exact ih _ _ p hp' hmatch

/-- A case-sensitive match at the running maximum is kept as long as no
longer match exists in the remaining list. -/
theorem mfpAux_cs_stays (text : Str) (l : List Property) (a : Property)
    (hcs : csMatch text a = true)
    (hbound : ∀ r ∈ l, (csMatch text r = true ∨ ciMatch text r = true) →
      r.propertyLabel.length ≤ a.propertyLabel.length) :
    ∃ b, (mfpAux text l a.propertyLabel.length (some a)).2 = some b ∧
      csMatch text b = true ∧ b.propertyLabel.length = a.propertyLabel.length := by
  induction l generalizing a with
  | nil => exact ⟨a, rfl, hcs, rfl⟩
  | cons r rest ih =>
    rw [mfpAux_cons]
    by_cases hc : mfpCond text a.propertyLabel.length r
    · rw [if_pos hc]
      have hrcs : csMatch text r = true ∧
          r.propertyLabel.length = a.propertyLabel.length := by
        rcases hc with ⟨hle, hcs'⟩ | ⟨hlt, hci'⟩
        · have := hbound r (by simp) (Or.inl hcs')
          exact ⟨hcs', by omega⟩
        · have := hbound r (by simp) (Or.inr hci')
          omega
      obtain ⟨b, hb1, hb2, hb3⟩ := ih r hrcs.1
        (fun q hq hmq => hrcs.2 ▸ hbound q (by simp [hq]) hmq)
      exact ⟨b, by rw [hrcs.2] at hb1 ⊢; exact hb1, hb2, by omega⟩
    · rw [if_neg hc]
      exact ih a hcs (fun q hq hmq => hbound q (by simp [hq]) hmq)

/-- C2 counterexample. Two properties with the identical label `X` both
case-sensitively match the text `X` (a tie); the loop's `>=` comparison
lets the *later* one overwrite the earlier, so first-occurrence
tie-breaking does not hold. -/
theorem matchFilteringProperty_cex :
    matchFilteringProperty
      [⟨strOf "a", strOf "X", none, [], strOf "=", false⟩,
       ⟨strOf "b", strOf "X", none, [], strOf "=", false⟩] (strOf "X") =
      some ⟨strOf "b", strOf "X", none, [], strOf "=", false⟩ ∧
    (⟨strOf "a", strOf "X", none, [], strOf "=", false⟩ : Property) ≠
      ⟨strOf "b", strOf "X", none, [], strOf "=", false⟩ := by
  constructor
  · decide
  · decide

/-- C2 (amended). `matchFilteringProperty` returns none exactly when no
label prefixes the text (case-sensitively or case-insensitively); a
returned property is a matching member of maximal label length, and if
any case-sensitive match attains that length the returned property is
itself case-sensitive (equal-length case-insensitive candidates never
displace a case-sensitive one).  Ties among case-sensitive matches go to
the **last** occurrence: the last case-sensitive match of maximal length
wins, and a case-insensitive match of maximal length wins only when it is
the first maximal match and no case-sensitive match attains the maximal
length. -/
theorem matchFilteringProperty_spec :
    (∀ (props : List Property) (text : Str),
      matchFilteringProperty props text = none ↔
        ∀ p ∈ props, csMatch text p = false ∧ ciMatch text p = false) ∧
    (∀ (props : List Property) (text : Str) (p : Property),
      matchFilteringProperty props text = some p →
        p ∈ props ∧ (csMatch text p = true ∨ ciMatch text p = true) ∧
        (∀ q ∈ props, (csMatch text q = true ∨ ciMatch text q = true) →
          q.propertyLabel.length ≤ p.propertyLabel.length) ∧
        (∀ q ∈ props, csMatch text q = true →
          q.propertyLabel.length = p.propertyLabel.length → csMatch text p = true)) ∧
    (∀ (l1 l2 : List Property) (q : Property) (text : Str),
      csMatch text q = true →
      (∀ r ∈ l1 ++ q :: l2, (csMatch text r = true ∨ ciMatch text r = true) →
        r.propertyLabel.length ≤ q.propertyLabel.length) →
      (∀ r ∈ l2, csMatch text r = true →
        r.propertyLabel.length ≠ q.propertyLabel.length) →
      matchFilteringProperty (l1 ++ q :: l2) text = some q) ∧
    (∀ (l1 l2 : List Property) (q : Property) (text : Str),
      ciMatch text q = true →
      (∀ r ∈ l1 ++ q :: l2, (csMatch text r = true ∨ ciMatch text r = true) →
        r.propertyLabel.length ≤ q.propertyLabel.length) →
      (∀ r ∈ l1 ++ q :: l2, csMatch text r = true →
        r.propertyLabel.length ≠ q.propertyLabel.length) →
      (∀ r ∈ l1, (csMatch text r = true ∨ ciMatch text r = true) →
        r.propertyLabel.length < q.propertyLabel.length) →
      matchFilteringProperty (l1 ++ q :: l2) text = some q) := by
  refine ⟨?_, ?_, ?_, ?_⟩
  · intro props text
    constructor
    · intro hn p hp
      by_contra hcon
      have hmatch : csMatch text p = true ∨ ciMatch text p = true := by
        rcases Bool.eq_false_or_eq_true (csMatch text p) with h | h
        · exact Or.inl h
        · rcases Bool.eq_false_or_eq_true (ciMatch text p) with h2 | h2
          · exact Or.inr h2
          · exact absurd ⟨h, h2⟩ hcon
      obtain ⟨q, hq⟩ := mfpAux_some_of_match text props 0 none (fun _ => rfl)
        ⟨p, hp, hmatch⟩
      rw [matchFilteringProperty] at hn
      rw [hn] at hq
      simp at hq
    · intro hall
      rw [matchFilteringProperty, mfpAux_none_pres text props 0 none hall]
  · intro props text p hp
    rw [matchFilteringProperty] at hp
    have hinv := mfpAux_inv text props 0 none (fun _ => rfl) (by intro q hq; simp at hq)
    obtain ⟨g1, g2, g3⟩ := hinv.2 p hp
    have hmem : p ∈ props := by
      rcases g3 with h | h
      · exact h
      · simp at h
    have hmaxi : ∀ q ∈ props, (csMatch text q = true ∨ ciMatch text q = true) →
        q.propertyLabel.length ≤ p.propertyLabel.length := by
      intro q hq hmq
      have := mfpAux_max_ge text props 0 none q hq hmq
      rw [g1] at this
      exact this
    refine ⟨hmem, g2, hmaxi, ?_⟩
    intro q hq hqcs hlen
    obtain ⟨l1, l2, hsplit⟩ := List.append_of_mem hq
    subst hsplit
    have happ := mfpAux_append text l1 (q :: l2) 0 none
    have hinv1 := mfpAux_inv text l1 0 none (fun _ => rfl) (by intro r hr; simp at hr)
    have hm1 : (mfpAux text l1 0 none).1 ≤ q.propertyLabel.length := by
      cases hacc : (mfpAux text l1 0 none).2 with
      | none => rw [hinv1.1 hacc]; exact Nat.zero_le _
      | some a =>
        obtain ⟨k1, k2, k3⟩ := hinv1.2 a hacc
        have hamem : a ∈ l1 := by
          rcases k3 with h | h
          · exact h
          · simp at h
        have hale : a.propertyLabel.length ≤ p.propertyLabel.length :=
          hmaxi a (by simp [hamem]) k2
        rw [k1]
        omega
    have hcondq : mfpCond text (mfpAux text l1 0 none).1 q := Or.inl ⟨hm1, hqcs⟩
    have hbound2 : ∀ r ∈ l2, (csMatch text r = true ∨ ciMatch text r = true) →
        r.propertyLabel.length ≤ q.propertyLabel.length := by
      intro r hr hmr
      have := hmaxi r (by simp [hr]) hmr
      omega
    obtain ⟨b, hb1, hb2, hb3⟩ := mfpAux_cs_stays text l2 q hqcs hbound2
    have hres : (mfpAux text (l1 ++ q :: l2) 0 none).2 = some b := by
      rw [happ, mfpAux_cons, if_pos hcondq]
      exact hb1
    rw [hp] at hres
    rw [Option.some_inj] at hres
    rw [hres]
    exact hb2
  · intro l1 l2 q text hqcs hmax hlast
    have happ := mfpAux_append text l1 (q :: l2) 0 none
    have hinv1 := mfpAux_inv text l1 0 none (fun _ => rfl) (by intro r hr; simp at hr)
    have hm1 : (mfpAux text l1 0 none).1 ≤ q.propertyLabel.length := by
      cases hacc : (mfpAux text l1 0 none).2 with
      | none => rw [hinv1.1 hacc]; exact Nat.zero_le _
      | some a =>
        obtain ⟨k1, k2, k3⟩ := hinv1.2 a hacc
        have hamem : a ∈ l1 := by
          rcases k3 with h | h
          · exact h
          · simp at h
        have := hmax a (by simp [hamem]) k2
        omega
    have hcondq : mfpCond text (mfpAux text l1 0 none).1 q := Or.inl ⟨hm1, hqcs⟩
    have hfail : ∀ r ∈ l2, ¬ mfpCond text q.propertyLabel.length r := by
      rintro r hr (⟨hle, hcs⟩ | ⟨hlt, hci⟩)
      · have h1 := hmax r (by simp [hr]) (Or.inl hcs)
        have h2 := hlast r hr hcs
        omega
      · have h1 := hmax r (by simp [hr]) (Or.inr hci)
        omega
    rw [matchFilteringProperty, happ, mfpAux_cons, if_pos hcondq,
        mfpAux_fail_pres text l2 _ _ hfail]
  · intro l1 l2 q text hqci hmax hnocs hfirst
    have hq0 : 0 < q.propertyLabel.length := by
      by_contra h
      have hlab : q.propertyLabel = [] := by
        cases hl : q.propertyLabel with
        | nil => rfl
        | cons a b => rw [hl] at h; simp at h
      have hqcs : csMatch text q = true := by
        rw [csMatch, hlab]
        simp [startsWith, List.isPrefixOf]
      exact hnocs q (by simp) hqcs rfl
    have happ := mfpAux_append text l1 (q :: l2) 0 none
    have hinv1 := mfpAux_inv text l1 0 none (fun _ => rfl) (by intro r hr; simp at hr)
    have hm1 : (mfpAux text l1 0 none).1 < q.propertyLabel.length := by
      cases hacc : (mfpAux text l1 0 none).2 with
      | none => rw [hinv1.1 hacc]; exact hq0
      | some a =>
        obtain ⟨k1, k2, k3⟩ := hinv1.2 a hacc
        have hamem : a ∈ l1 := by
          rcases k3 with h | h
          · exact h
          · simp at h
        have := hfirst a hamem k2
        omega
    have hcondq : mfpCond text (mfpAux text l1 0 none).1 q := Or.inr ⟨hm1, hqci⟩
    have hfail : ∀ r ∈ l2, ¬ mfpCond text q.propertyLabel.length r := by
      rintro r hr (⟨hle, hcs⟩ | ⟨hlt, hci⟩)
      · have h1 := hmax r (by simp [hr]) (Or.inl hcs)
        have h2 := hnocs r (by simp [hr]) hcs
        omega
      · have h1 := hmax r (by simp [hr]) (Or.inr hci)
        omega
    rw [matchFilteringProperty, happ, mfpAux_cons, if_pos hcondq,
        mfpAux_fail_pres text l2 _ _ hfail]

/-- Witness for C2 at concrete inputs: the single `Status` property is
returned for `"Status = active"` (via the last-case-sensitive clause with
empty surroundings). -/
theorem matchFilteringProperty_spec_witness :
    matchFilteringProperty
      [⟨strOf "status", strOf "Status", none, [strOf "="], strOf "=", false⟩]
      (strOf "Status = active") =
      some ⟨strOf "status", strOf "Status", none, [strOf "="], strOf "=", false⟩ := by
  exact matchFilteringProperty_spec.2.2.1 [] []
    ⟨strOf "status", strOf "Status", none, [strOf "="], strOf "=", false⟩
    (strOf "Status = active") (by decide) (by decide) (by decide)

/-! ## Hidden properties in suggestions -/

/-- C9 counterexample. A hidden property's option *does* appear in the
cross-property values group of the free-text stage:
`getAllValueSuggestions` filters on operator support but never on
`hidden`. -/
theorem hidden_in_suggestions_cex :
    (⟨strOf "tc", strOf "Hidden", none, [strOf "="], strOf "=", true⟩ : Property).hidden
        = true ∧
    ((getAutosuggestOptions (ParsedText.freeText none (strOf "x"))
        [⟨strOf "tc", strOf "Hidden", none, [strOf "="], strOf "=", true⟩]
        [⟨some ⟨strOf "tc", strOf "Hidden", none, [strOf "="], strOf "=", true⟩,
          strOf "v", none, none⟩]
        ⟨none, none, none⟩).options.any
      (fun g => g.options.any
        (fun o => o.labelPre == some (strOf "Hidden =")))) = true := by
  constructor
  · rfl
  · decide

/-- C9 (amended). Hidden properties are excluded from the
property-suggestion groups: every option of every group built by
`getPropertySuggestions` names a non-hidden member of the property list,
and in both the operator stage and the (non-`!:`) free-text stage the
suggestion list starts with exactly those groups.  (The cross-property
values group of the free-text stage is *not* filtered by `hidden`, as the
counterexample shows, and the property stage always shows the matched
property's own options.) -/
theorem hidden_excluded_from_property_suggestions :
    (∀ (props : List Property) (glabel : Str) (g : SugGroup) (o : SugOption),
      g ∈ getPropertySuggestions props glabel → o ∈ g.options →
        ∃ p, p ∈ props ∧ p.hidden = false ∧
          o.value = p.propertyLabel ∧ o.label = p.propertyLabel) ∧
    (∀ (props : List Property) (opts : List FilterOption) (i18n : I18nStrings)
        (property : Property) (opText : Str),
      ∃ rest, (getAutosuggestOptions (ParsedText.operatorStep property opText)
          props opts i18n).options =
        getPropertySuggestions props (i18n.groupPropertiesText.getD (strOf "Properties"))
          ++ rest) ∧
    (∀ (props : List Property) (opts : List FilterOption) (i18n : I18nStrings)
        (operator : Option Str) (value : Str),
      operator ≠ some (strOf "!:") →
      ∃ rest, (getAutosuggestOptions (ParsedText.freeText operator value)
          props opts i18n).options =
        getPropertySuggestions props (i18n.groupPropertiesText.getD (strOf "Properties"))
          ++ rest) := by
  refine ⟨?_, ?_, ?_⟩
  · intro props glabel g o hg ho
    simp only [getPropertySuggestions] at hg
    split at hg
    · rw [List.mem_singleton] at hg
      subst hg
      simp only at ho
      obtain ⟨p, hpf, hpo⟩ := List.mem_map.mp ho
      obtain ⟨hpmem, hpred⟩ := List.mem_filter.mp hpf
      refine ⟨p, hpmem, by simpa using hpred, ?_, ?_⟩
      · rw [← hpo]
      · rw [← hpo]
    · simp at hg
  · intro props opts i18n property opText
    exact ⟨_, rfl⟩
  · intro props opts i18n operator value hne
    simp only [getAutosuggestOptions]
    rw [if_pos hne]
    exact ⟨_, rfl⟩

/-- Witness for C9 at a concrete input: with one visible and one hidden
property, the free-text stage's property group lists only the visible
label. -/
theorem hidden_excluded_witness :
    (getAutosuggestOptions (ParsedText.freeText none [])
        [⟨strOf "status", strOf "Status", none, [strOf "="], strOf "=", false⟩,
         ⟨strOf "tc", strOf "Types", none, [strOf "="], strOf "=", true⟩]
        [] ⟨none, none, none⟩).options =
      [⟨strOf "Properties", [⟨strOf "Status", strOf "Status", none, none, true, none, none⟩]⟩] := by
  obtain ⟨rest, hrest⟩ := hidden_excluded_from_property_suggestions.2.2
    [⟨strOf "status", strOf "Status", none, [strOf "="], strOf "=", false⟩,
     ⟨strOf "tc", strOf "Types", none, [strOf "="], strOf "=", true⟩]
    [] ⟨none, none, none⟩ none [] (by decide)
  rw [hrest]
  have : rest = [] := by
    have h2 := hrest
    rw [show (getAutosuggestOptions (ParsedText.freeText none [])
        [⟨strOf "status", strOf "Status", none, [strOf "="], strOf "=", false⟩,
         ⟨strOf "tc", strOf "Types", none, [strOf "="], strOf "=", true⟩]
        [] ⟨none, none, none⟩).options =
      [⟨strOf "Properties", [⟨strOf "Status", strOf "Status", none, none, true, none, none⟩]⟩]
      from by decide] at h2
    rw [show getPropertySuggestions
        [⟨strOf "status", strOf "Status", none, [strOf "="], strOf "=", false⟩,
         ⟨strOf "tc", strOf "Types", none, [strOf "="], strOf "=", true⟩]
        ((⟨none, none, none⟩ : I18nStrings).groupPropertiesText.getD (strOf "Properties")) =
      [⟨strOf "Properties", [⟨strOf "Status", strOf "Status", none, none, true, none, none⟩]⟩]
      from by decide] at h2
    simpa using h2.symm
  rw [this]
  rw [show getPropertySuggestions
      [⟨strOf "status", strOf "Status", none, [strOf "="], strOf "=", false⟩,
       ⟨strOf "tc", strOf "Types", none, [strOf "="], strOf "=", true⟩]
      ((⟨none, none, none⟩ : I18nStrings).groupPropertiesText.getD (strOf "Properties")) =
    [⟨strOf "Properties", [⟨strOf "Status", strOf "Status", none, none, true, none, none⟩]⟩]
    from by decide]
  rfl
